import Mathlib

/-!
Verification of the AWS Signature Version 4 signer of `buckerio`
(`src/buckerio/auth.py`, class `AWSV4Auth`).

The Python code is shallowly embedded: byte strings become `List Nat`
(each element a byte value), Python `str` becomes Lean `String`
(operations are modelled byte-exactly for the ASCII range, which is the
range the signing protocol and all inputs considered here use;
`str.lower`/`str.upper` are modelled on ASCII letters and `str.strip`
on Python's whitespace set), Python dicts become insertion-ordered
association lists with unique keys (`Bindings`), the ambient UTC clock
read `datetime.now(timezone.utc)` becomes an explicit `Datetime`
argument, and `urllib.parse.urlparse`'s possible `ValueError` (raised
for netlocs with unbalanced brackets) becomes an `Except String` result
threaded through `sign_request` and `presign_url`.

All definitions are executable and kernel-evaluable, so concrete runs of
the signer (including full SHA-256 / HMAC-SHA256 computations) can be
checked by `decide`.
-/

set_option maxRecDepth 400000
set_option maxHeartbeats 4000000

namespace Buckerio

/-! ## Bytes, hex, and UTF-8 -/

/-- Truncate to 32 bits. -/
def m32 (n : Nat) : Nat := n &&& 0xFFFFFFFF

/-- 32-bit right rotation. -/
def rotr32 (n x : Nat) : Nat := m32 ((x >>> n) ||| (x <<< (32 - n)))

/-- Lowercase hex digit, as emitted by Python's `hexdigest`. -/
def hexDigitLower (n : Nat) : Char :=
  Char.ofNat (if n < 10 then 48 + n else 87 + n)

/-- Uppercase hex digit, as emitted by `urllib.parse.quote`. -/
def hexDigitUpper (n : Nat) : Char :=
  Char.ofNat (if n < 10 then 48 + n else 55 + n)

/-- Two lowercase hex characters of a byte. -/
def byteToHex (b : Nat) : List Char :=
  [hexDigitLower (b / 16), hexDigitLower (b % 16)]

/-- Lowercase hex string of a byte list (Python `bytes.hex` / `hexdigest`). -/
def bytesToHex (bs : List Nat) : String :=
  ⟨bs.flatMap byteToHex⟩

/-- UTF-8 encoding of a single code point (Python `str.encode("utf-8")`,
one character). -/
def utf8EncodeChar (c : Char) : List Nat :=
  let n := c.toNat
  if n < 0x80 then [n]
  else if n < 0x800 then [0xC0 ||| (n >>> 6), 0x80 ||| (n &&& 0x3F)]
  else if n < 0x10000 then
    [0xE0 ||| (n >>> 12), 0x80 ||| ((n >>> 6) &&& 0x3F), 0x80 ||| (n &&& 0x3F)]
  else
    [0xF0 ||| (n >>> 18), 0x80 ||| ((n >>> 12) &&& 0x3F),
     0x80 ||| ((n >>> 6) &&& 0x3F), 0x80 ||| (n &&& 0x3F)]

/-- UTF-8 bytes of a string (Python `s.encode("utf-8")`). -/
def utf8Bytes (s : String) : List Nat := s.data.flatMap utf8EncodeChar

/-! ## SHA-256 (FIPS 180-4), executable over byte lists -/

/-- The sixty-four SHA-256 round constants of FIPS 180-4 (the fractional
parts of the cube roots of the first sixty-four primes), in decimal. -/
def shaK : List Nat :=
  [1116352408, 1899447441, 3049323471, 3921009573, 961987163, 1508970993,
   2453635748, 2870763221, 3624381080, 310598401, 607225278, 1426881987,
   1925078388, 2162078206, 2614888103, 3248222580, 3835390401, 4022224774,
   264347078, 604807628, 770255983, 1249150122, 1555081692, 1996064986,
   2554220882, 2821834349, 2952996808, 3210313671, 3336571891, 3584528711,
   113926993, 338241895, 666307205, 773529912, 1294757372, 1396182291,
   1695183700, 1986661051, 2177026350, 2456956037, 2730485921, 2820302411,
   3259730800, 3345764771, 3516065817, 3600352804, 4094571909, 275423344,
   430227734, 506948616, 659060556, 883997877, 958139571, 1322822218,
   1537002063, 1747873779, 1955562222, 2024104815, 2227730452, 2361852424,
   2428436474, 2756734187, 3204031479, 3329325298]

/-- The initial SHA-256 hash state of FIPS 180-4 (fractional parts of the
square roots of the first eight primes), in decimal. -/
def shaH0 : List Nat :=
  [1779033703, 3144134277, 1013904242, 2773480762,
   1359893119, 2600822924, 528734635, 1541459225]

/-- Big-endian 32-bit words from bytes (incomplete trailing groups dropped;
padded input is always a multiple of 4). -/
def bytesToWords : List Nat → List Nat
  | b0 :: b1 :: b2 :: b3 :: rest =>
    (((b0 * 256 + b1) * 256 + b2) * 256 + b3) :: bytesToWords rest
  | _ => []

/-- Big-endian expansion of a number into `n` bytes. -/
def natToBytesBE (n : Nat) (x : Nat) : List Nat :=
  match n with
  | 0 => []
  | k + 1 => natToBytesBE k (x / 256) ++ [x % 256]

/-- SHA-256 padding: 0x80, zeros, then the 64-bit big-endian bit length. -/
def shaPad (msg : List Nat) : List Nat :=
  let l := msg.length
  let zeros := (64 - ((l + 9) % 64)) % 64
  msg ++ [0x80] ++ List.replicate zeros 0 ++ natToBytesBE 8 (l * 8)

/-- Message-schedule extension; `k` counts the words still to append. -/
def extendWords (w : List Nat) : Nat → List Nat
  | 0 => w
  | k + 1 =>
    let i := w.length
    let w15 := w.getD (i - 15) 0
    let w2 := w.getD (i - 2) 0
    let s0 := m32 ((rotr32 7 w15) ^^^ (rotr32 18 w15) ^^^ (w15 >>> 3))
    let s1 := m32 ((rotr32 17 w2) ^^^ (rotr32 19 w2) ^^^ (w2 >>> 10))
    extendWords (w ++ [m32 (w.getD (i - 16) 0 + s0 + w.getD (i - 7) 0 + s1)]) k

/-- One round of the SHA-256 compression loop. -/
def shaRound (s : Nat × Nat × Nat × Nat × Nat × Nat × Nat × Nat) (kw : Nat × Nat) :
    Nat × Nat × Nat × Nat × Nat × Nat × Nat × Nat :=
  match s, kw with
  | (a, b, c, d, e, f, g, h), (k, w) =>
    let s1 := m32 ((rotr32 6 e) ^^^ (rotr32 11 e) ^^^ (rotr32 25 e))
    let ch := m32 ((e &&& f) ^^^ ((0xFFFFFFFF ^^^ e) &&& g))
    let t1 := m32 (h + s1 + ch + k + w)
    let s0 := m32 ((rotr32 2 a) ^^^ (rotr32 13 a) ^^^ (rotr32 22 a))
    let maj := m32 ((a &&& b) ^^^ (a &&& c) ^^^ (b &&& c))
    let t2 := m32 (s0 + maj)
    (m32 (t1 + t2), a, b, c, m32 (d + t1), e, f, g)

/-- Compress one 16-word block into the running hash state. -/
def shaCompress (h : List Nat) (block : List Nat) : List Nat :=
  let w := extendWords block 48
  match h with
  | [h0, h1, h2, h3, h4, h5, h6, h7] =>
    let fin := (shaK.zip w).foldl shaRound (h0, h1, h2, h3, h4, h5, h6, h7)
    match fin with
    | (a, b, c, d, e, f, g, hh) =>
      [m32 (h0 + a), m32 (h1 + b), m32 (h2 + c), m32 (h3 + d),
       m32 (h4 + e), m32 (h5 + f), m32 (h6 + g), m32 (h7 + hh)]
  | _ => h

/-- Split a word list into 16-word blocks; `fuel ≥ ws.length` suffices
since every step consumes at least one word. -/
def splitBlocksF : Nat → List Nat → List (List Nat)
  | 0, _ => []
  | _, [] => []
  | fuel + 1, ws => ws.take 16 :: splitBlocksF fuel (ws.drop 16)

def splitBlocks (ws : List Nat) : List (List Nat) := splitBlocksF ws.length ws

/-- SHA-256 of a byte list, as the 32 digest bytes. -/
def sha256 (msg : List Nat) : List Nat :=
  let blocks := splitBlocks (bytesToWords (shaPad msg))
  (blocks.foldl shaCompress shaH0).flatMap (natToBytesBE 4)

/-- HMAC-SHA256 (RFC 2104) of a message under a key, as 32 raw bytes.
This is what `hmac.new(key, msg, hashlib.sha256).digest()` computes. -/
def hmacSha256 (key msg : List Nat) : List Nat :=
  let k0 := if key.length > 64 then sha256 key else key
  let kp := k0 ++ List.replicate (64 - k0.length) 0
  sha256 ((kp.map (fun b => b ^^^ 0x5c)) ++ sha256 ((kp.map (fun b => b ^^^ 0x36)) ++ msg))

/-! ## Python string primitives (modelled for the ASCII range) -/

def isAsciiUpperChar (c : Char) : Bool := 65 ≤ c.toNat && c.toNat ≤ 90

def isAsciiLowerChar (c : Char) : Bool := 97 ≤ c.toNat && c.toNat ≤ 122

def isAsciiDigitChar (c : Char) : Bool := 48 ≤ c.toNat && c.toNat ≤ 57

def asciiLowerChar (c : Char) : Char :=
  if isAsciiUpperChar c then Char.ofNat (c.toNat + 32) else c

def asciiUpperChar (c : Char) : Char :=
  if isAsciiLowerChar c then Char.ofNat (c.toNat - 32) else c

/-- Python `str.lower`, on ASCII letters (identity elsewhere). -/
def pyLower (s : String) : String := ⟨s.data.map asciiLowerChar⟩

/-- Python `str.upper`, on ASCII letters (identity elsewhere). -/
def pyUpper (s : String) : String := ⟨s.data.map asciiUpperChar⟩

/-- The characters Python `str.strip()` removes: those with `str.isspace()`. -/
def isPySpace (c : Char) : Bool :=
  let n := c.toNat
  (9 ≤ n && n ≤ 13) || (28 ≤ n && n ≤ 31) || n == 32 || n == 0x85 || n == 0xA0 ||
  n == 0x1680 || (0x2000 ≤ n && n ≤ 0x200A) || n == 0x2028 || n == 0x2029 ||
  n == 0x202F || n == 0x205F || n == 0x3000

/-- Python `str.strip()`: remove leading and trailing whitespace only. -/
def pyStrip (s : String) : String :=
  ⟨((s.data.dropWhile isPySpace).reverse.dropWhile isPySpace).reverse⟩

/-- Lexicographic comparison of character lists by code point: Python's
`<=` on strings. -/
def charListLe : List Char → List Char → Bool
  | [], _ => true
  | _ :: _, [] => false
  | a :: as, b :: bs => if a = b then charListLe as bs else decide (a < b)

/-- Python's `<=` on strings (code-point lexicographic). -/
def strLe (a b : String) : Bool := charListLe a.data b.data

/-- Ordering of dict entries by key, used for Python's `sorted(d.items())`.
Keys of a dict are unique, so the value component never decides the order. -/
def entryLe (x y : String × String) : Prop := strLe x.1 y.1 = true

instance : DecidableRel entryLe := fun x y => decEq (strLe x.1 y.1) true

/-! ## Python dicts as insertion-ordered association lists

A Python 3.7+ `dict` preserves insertion order, and assigning to an
existing key updates the value in place, keeping the key's original
position. `Bindings` models a dict as the list of its items in order,
with `dictSet` modelling `d[k] = v`. -/

abbrev Bindings := List (String × String)

/-- Does the dict have the key? (Python `k in d`.) -/
def hasKey (d : Bindings) (k : String) : Bool := d.any (fun p => p.1 == k)

/-- Python `d[k] = v`: update in place if present, else append. -/
def dictSet (d : Bindings) (k v : String) : Bindings :=
  if hasKey d k then d.map (fun p => if p.1 = k then (k, v) else p)
  else d ++ [(k, v)]

/-- Build a dict from a pair list, later duplicates overwriting earlier
ones (Python `dict(pairs)` and dict comprehensions). -/
def dictOfList (ps : List (String × String)) : Bindings :=
  ps.foldl (fun d p => dictSet d p.1 p.2) []

/-- Python `{**d, **e}` given `d` already a dict: set each entry of `e`. -/
def dictMerge (d : Bindings) (e : List (String × String)) : Bindings :=
  e.foldl (fun acc p => dictSet acc p.1 p.2) d

/-! ## Percent-encoding (`urllib.parse.quote` / `urlencode`) -/

/-- The bytes `urllib.parse.quote` never encodes: ASCII alphanumerics
and `_ . - ~`. -/
def isAlwaysSafe (b : Nat) : Bool :=
  (48 ≤ b && b ≤ 57) || (65 ≤ b && b ≤ 90) || (97 ≤ b && b ≤ 122) ||
  b == 45 || b == 46 || b == 95 || b == 126

/-- One byte under `quote` with `safe=""`: kept if always-safe, else `%XX`. -/
def quoteByte (b : Nat) : List Char :=
  if isAlwaysSafe b then [Char.ofNat b]
  else ['%', hexDigitUpper (b / 16), hexDigitUpper (b % 16)]

/-- `urllib.parse.quote(s, safe="")`. -/
def quoteStr (s : String) : String := ⟨(utf8Bytes s).flatMap quoteByte⟩

/-- One byte under `quote_plus` with `safe="-_.~"`: space becomes `+`,
always-safe bytes are kept (the extra safe set `-_.~` is a subset of the
always-safe set, so it adds nothing), the rest become `%XX`. -/
def quotePlusByte (b : Nat) : List Char :=
  if b == 32 then ['+']
  else if isAlwaysSafe b then [Char.ofNat b]
  else ['%', hexDigitUpper (b / 16), hexDigitUpper (b % 16)]

/-- Characters of `urllib.parse.quote_plus(s, safe="-_.~")`. -/
def quotePlusChars (s : String) : List Char := (utf8Bytes s).flatMap quotePlusByte

/-- Join character lists with a separator character (Python `sep.join`). -/
def interChar (c : Char) : List (List Char) → List Char
  | [] => []
  | [x] => x
  | x :: y :: t => x ++ c :: interChar c (y :: t)

/-- One `key=value` pair as `urlencode` emits it. -/
def encodePair (p : String × String) : List Char :=
  quotePlusChars p.1 ++ '=' :: quotePlusChars p.2

/-- `urllib.parse.urlencode(ps, safe="-_.~")`: quote-plus each key and
value, join pairs as `key=value` with `&`, in the order given. -/
def urlencode (ps : List (String × String)) : String :=
  ⟨interChar '&' (ps.map encodePair)⟩

/-! ## Splitting helpers -/

/-- Split at the first occurrence of `c`: `some (before, after)` when `c`
occurs, neither part containing that occurrence. -/
def splitAtFirst (c : Char) : List Char → Option (List Char × List Char)
  | [] => none
  | d :: t =>
    if d = c then some ([], t)
    else (splitAtFirst c t).map (fun p => (d :: p.1, p.2))

/-- Python `s.split(sep)` for a one-character separator: the empty string
splits to `[""]`, and adjacent separators yield empty pieces. -/
def splitOnChar (c : Char) : List Char → List (List Char)
  | [] => [[]]
  | d :: t =>
    let r := splitOnChar c t
    if d = c then [] :: r
    else
      match r with
      | [] => [[d]]
      | h :: t2 => (d :: h) :: t2

/-- Decidable equality for `Except` results, for concrete evaluation. -/
instance {ε α : Type} [DecidableEq ε] [DecidableEq α] : DecidableEq (Except ε α) := fun a b =>
  match a, b with
  | Except.ok x, Except.ok y =>
    if h : x = y then isTrue (by rw [h])
    else isFalse (fun hc => h (Except.ok.inj hc))
  | Except.error x, Except.error y =>
    if h : x = y then isTrue (by rw [h])
    else isFalse (fun hc => h (Except.error.inj hc))
  | Except.ok _, Except.error _ => isFalse (fun hc => Except.noConfusion hc)
  | Except.error _, Except.ok _ => isFalse (fun hc => Except.noConfusion hc)

/-! ## `urllib.parse.urlparse` -/

/-- The six components `urlparse` returns. -/
structure ParseResult where
  scheme : String
  netloc : String
  path : String
  params : String
  query : String
  fragment : String
  deriving Repr, DecidableEq

def isAsciiAlphaChar (c : Char) : Bool :=
  (65 ≤ c.toNat && c.toNat ≤ 90) || (97 ≤ c.toNat && c.toNat ≤ 122)

/-- Characters allowed in a URL scheme after the first (which must be a
letter): letters, digits, and `+ - .`. -/
def isSchemeChar (c : Char) : Bool :=
  isAsciiAlphaChar c || isAsciiDigitChar c || c == '+' || c == '-' || c == '.'

/-- `_splitparams`: split `;params` off the last path segment. -/
def splitParams (cs : List Char) : List Char × List Char :=
  if cs.contains ';' then
    if cs.contains '/' then
      match splitAtFirst '/' cs.reverse with
      | some (revAfter, revBefore) =>
        match splitAtFirst ';' revAfter.reverse with
        | some (a, b) => (revBefore.reverse ++ '/' :: a, b)
        | none => (cs, [])
      | none => (cs, [])
    else
      match splitAtFirst ';' cs with
      | some (a, b) => (a, b)
      | none => (cs, [])
  else (cs, [])

/-- `urllib.parse.urlparse`. Models CPython's parse: strip leading and
trailing C0-control/space characters, remove tab/CR/LF, split off a valid
scheme (lower-cased), take the netloc after `//` up to `/ ? #`, reject
netlocs with unbalanced square brackets (`ValueError: Invalid IPv6 URL`,
the one parse error relevant here; the deeper validation CPython applies
to the content of a bracketed host is not modelled, and no input in this
development has a bracketed host), then split off fragment, query and
params. -/
def urlparse (url : String) : Except String ParseResult :=
  let cs0 := url.data.dropWhile (fun c => c.toNat ≤ 32)
  let cs1 := (cs0.reverse.dropWhile (fun c => c.toNat ≤ 32)).reverse
  let cs := cs1.filter (fun c => !(c == '\t' || c == '\n' || c == '\r'))
  let schemeRest : String × List Char :=
    match splitAtFirst ':' cs with
    | some (before, after) =>
      if before ≠ [] && isAsciiAlphaChar (before.headD ' ') && before.all isSchemeChar
      then (⟨before.map asciiLowerChar⟩, after)
      else ("", cs)
    | none => ("", cs)
  let rest := schemeRest.2
  let netlocRest : List Char × List Char :=
    match rest with
    | '/' :: '/' :: r2 =>
      let n := r2.takeWhile (fun c => !(c == '/' || c == '?' || c == '#'))
      (n, r2.dropWhile (fun c => !(c == '/' || c == '?' || c == '#')))
    | _ => ([], rest)
  let netloc := netlocRest.1
  if (netloc.contains '[' && !(netloc.contains ']')) ||
     (netloc.contains ']' && !(netloc.contains '[')) then
    Except.error "Invalid IPv6 URL"
  else
    let fragSplit :=
      match splitAtFirst '#' netlocRest.2 with
      | some (u, f) => (u, f)
      | none => (netlocRest.2, [])
    let querySplit :=
      match splitAtFirst '?' fragSplit.1 with
      | some (u, q) => (u, q)
      | none => (fragSplit.1, [])
    let pathParams := splitParams querySplit.1
    Except.ok
      { scheme := schemeRest.1
        netloc := ⟨netloc⟩
        path := ⟨pathParams.1⟩
        params := ⟨pathParams.2⟩
        query := ⟨querySplit.2⟩
        fragment := ⟨fragSplit.2⟩ }

/-! ## UTC timestamps

`sign_request` reads `datetime.now(timezone.utc)`; `presign_url` takes an
optional explicit `request_date` and falls back to the same clock read.
The clock value is modelled as an explicit argument of the embedded
functions, so "identical clock value" is literal argument equality. -/

/-- A UTC instant, to second precision as the signer formats it. -/
structure Datetime where
  year : Nat
  month : Nat
  day : Nat
  hour : Nat
  minute : Nat
  second : Nat
  deriving Repr, DecidableEq

def pad2 (n : Nat) : String := if n < 10 then "0" ++ toString n else toString n

def pad4 (n : Nat) : String :=
  if n < 10 then "000" ++ toString n
  else if n < 100 then "00" ++ toString n
  else if n < 1000 then "0" ++ toString n
  else toString n

/-- `now.strftime("%Y%m%dT%H%M%SZ")`. -/
def amzDateOf (t : Datetime) : String :=
  pad4 t.year ++ pad2 t.month ++ pad2 t.day ++ "T" ++
  pad2 t.hour ++ pad2 t.minute ++ pad2 t.second ++ "Z"

/-- `now.strftime("%Y%m%d")`. -/
def dateStampOf (t : Datetime) : String :=
  pad4 t.year ++ pad2 t.month ++ pad2 t.day

/-! ## The signer (`class AWSV4Auth`) -/

/-- The credential fields of `AWSV4Auth.__init__`. -/
structure AWSV4Auth where
  access_key : String
  secret_key : String
  region : String
  deriving Repr, DecidableEq

/-- `AWSV4Auth.ALGORITHM`. -/
def ALGORITHM : String := "AWS4-HMAC-SHA256"

/-- `AWSV4Auth.SERVICE`. -/
def SERVICE : String := "s3"

/-- `_sign`: HMAC-SHA256 of the UTF-8 message under the key, raw digest. -/
def AWSV4Auth.sign (_auth : AWSV4Auth) (key : List Nat) (msg : String) : List Nat :=
  hmacSha256 key (utf8Bytes msg)

/-- `_get_signature_key`: the four-stage key-derivation chain. -/
def AWSV4Auth.get_signature_key (auth : AWSV4Auth) (date_stamp : String) : List Nat :=
  let k_date := auth.sign (utf8Bytes ("AWS4" ++ auth.secret_key)) date_stamp
  let k_region := auth.sign k_date auth.region
  let k_service := auth.sign k_region SERVICE
  auth.sign k_service "aws4_request"

/-- `_get_canonical_uri`: percent-encode each `/`-separated segment. -/
def AWSV4Auth.get_canonical_uri (_auth : AWSV4Auth) (path : String) : String :=
  String.intercalate "/" ((splitOnChar '/' path.data).map (fun seg => quoteStr ⟨seg⟩))

/-- `_get_canonical_query_string`: empty for no parameters, else the
entries sorted by key and `urlencode`d with `safe="-_.~"`. -/
def AWSV4Auth.get_canonical_query_string (_auth : AWSV4Auth) (query_params : Bindings) : String :=
  if query_params = [] then ""
  else urlencode (List.insertionSort entryLe query_params)

/-- `_get_canonical_headers`: lower-case names, strip values, sort by
name; returns the `name:value\n` block and the `;`-joined name list. -/
def AWSV4Auth.get_canonical_headers (_auth : AWSV4Auth) (headers : Bindings) :
    String × String :=
  let normalized := dictOfList (headers.map (fun p => (pyLower p.1, pyStrip p.2)))
  let sorted_headers := List.insertionSort entryLe normalized
  (String.join (sorted_headers.map (fun p => p.1 ++ ":" ++ p.2 ++ "\n")),
   String.intercalate ";" (sorted_headers.map Prod.fst))

/-- `_sha256_hash`: SHA-256 hex digest of bytes. -/
def AWSV4Auth.sha256_hash (_auth : AWSV4Auth) (data : List Nat) : String :=
  bytesToHex (sha256 data)

/-- `sign_request`. The clock read `datetime.now(timezone.utc)` is the
explicit argument `now`; `dict(headers)` copies the caller's dict, so the
header injections below act on the copy (see `sign_request_heap` for the
mutation-level model); the digest and signature pipeline follows the
source line by line. -/
def AWSV4Auth.sign_request (auth : AWSV4Auth) (method url : String)
    (headers : Bindings) (body : List Nat) (query_params : Bindings)
    (now : Datetime) : Except String Bindings :=
  match urlparse url with
  | Except.error e => Except.error e
  | Except.ok parsed =>
    let path := if parsed.path = "" then "/" else parsed.path
    let amz_date := amzDateOf now
    let date_stamp := dateStampOf now
    let headers1 := dictSet (dictSet headers "x-amz-date" amz_date)
      "x-amz-content-sha256" (auth.sha256_hash body)
    let canonical_uri := auth.get_canonical_uri path
    let canonical_query_string := auth.get_canonical_query_string query_params
    let canonical := auth.get_canonical_headers headers1
    let payload_hash := auth.sha256_hash body
    let canonical_request := String.intercalate "\n"
      [pyUpper method, canonical_uri, canonical_query_string,
       canonical.1, canonical.2, payload_hash]
    let credential_scope :=
      date_stamp ++ "/" ++ auth.region ++ "/" ++ SERVICE ++ "/aws4_request"
    let string_to_sign := String.intercalate "\n"
      [ALGORITHM, amz_date, credential_scope,
       auth.sha256_hash (utf8Bytes canonical_request)]
    let signing_key := auth.get_signature_key date_stamp
    let signature := bytesToHex (hmacSha256 signing_key (utf8Bytes string_to_sign))
    let authorization :=
      ALGORITHM ++ " Credential=" ++ auth.access_key ++ "/" ++ credential_scope ++
      ", SignedHeaders=" ++ canonical.2 ++ ", Signature=" ++ signature
    Except.ok (dictSet headers1 "Authorization" authorization)

/-- `presign_url`. `request_date` models both the explicit argument and
the `datetime.now(timezone.utc)` fallback (whichever instant the call
uses); `expires_in` is a Python `int`, stringified in decimal. -/
def AWSV4Auth.presign_url (auth : AWSV4Auth) (method url : String)
    (expires_in : Int) (query_params : Bindings) (request_date : Datetime) :
    Except String String :=
  match urlparse url with
  | Except.error e => Except.error e
  | Except.ok parsed =>
    let path := if parsed.path = "" then "/" else parsed.path
    let host := parsed.netloc
    let amz_date := amzDateOf request_date
    let date_stamp := dateStampOf request_date
    let credential_scope :=
      date_stamp ++ "/" ++ auth.region ++ "/" ++ SERVICE ++ "/aws4_request"
    let presign_params := dictMerge
      [("X-Amz-Algorithm", ALGORITHM),
       ("X-Amz-Credential", auth.access_key ++ "/" ++ credential_scope),
       ("X-Amz-Date", amz_date),
       ("X-Amz-Expires", toString expires_in),
       ("X-Amz-SignedHeaders", "host")] query_params
    let canonical_uri := auth.get_canonical_uri path
    let canonical_query_string := auth.get_canonical_query_string presign_params
    let canonical_headers := "host:" ++ host ++ "\n"
    let signed_headers := "host"
    let payload_hash := "UNSIGNED-PAYLOAD"
    let canonical_request := String.intercalate "\n"
      [pyUpper method, canonical_uri, canonical_query_string,
       canonical_headers, signed_headers, payload_hash]
    let string_to_sign := String.intercalate "\n"
      [ALGORITHM, amz_date, credential_scope,
       auth.sha256_hash (utf8Bytes canonical_request)]
    let signing_key := auth.get_signature_key date_stamp
    let signature := bytesToHex (hmacSha256 signing_key (utf8Bytes string_to_sign))
    let final_params := dictSet presign_params "X-Amz-Signature" signature
    let query_string := urlencode final_params
    Except.ok (parsed.scheme ++ "://" ++ host ++ path ++ "?" ++ query_string)

/-! ## The headers dict at the mutation level

`sign_request` receives the caller's headers dict by reference. Line 112
of the source rebinds the local name to `dict(headers)` — a fresh copy —
before any item assignment, so the caller's object is never written. To
make that checkable, `sign_request_heap` replays the body over an
explicit heap of dict objects: the caller's dict lives at index `r`, the
`dict(headers)` copy is allocated at a fresh index, and every
`headers[k] = v` statement of the source is an in-place update of the
object the local name is bound to at that point. -/

/-- Read the dict object at a heap index. -/
def heapGet (h : List Bindings) (r : Nat) : Bindings := h.getD r []

/-- Overwrite the dict object at a heap index (no-op when out of range). -/
def heapSet : List Bindings → Nat → Bindings → List Bindings
  | [], _, _ => []
  | _ :: t, 0, d => d :: t
  | x :: t, n + 1, d => x :: heapSet t n d

/-- `sign_request`, replayed over an explicit heap of dict objects. The
caller's headers dict is at index `r`; the returned heap shows every
write the body performs. Mirrors the source statement by statement. -/
def AWSV4Auth.sign_request_heap (auth : AWSV4Auth) (method url : String)
    (heap : List Bindings) (r : Nat) (body : List Nat) (query_params : Bindings)
    (now : Datetime) : List Bindings × Except String Bindings :=
  match urlparse url with
  | Except.error e => (heap, Except.error e)
  | Except.ok parsed =>
    let path := if parsed.path = "" then "/" else parsed.path
    let amz_date := amzDateOf now
    let date_stamp := dateStampOf now
    -- headers = dict(headers): allocate a copy at a fresh index
    let rl := heap.length
    let heap1 := heap ++ [heapGet heap r]
    -- headers["x-amz-date"] = amz_date
    let heap2 := heapSet heap1 rl (dictSet (heapGet heap1 rl) "x-amz-date" amz_date)
    -- headers["x-amz-content-sha256"] = ...
    let heap3 := heapSet heap2 rl
      (dictSet (heapGet heap2 rl) "x-amz-content-sha256" (auth.sha256_hash body))
    let canonical_uri := auth.get_canonical_uri path
    let canonical_query_string := auth.get_canonical_query_string query_params
    let canonical := auth.get_canonical_headers (heapGet heap3 rl)
    let payload_hash := auth.sha256_hash body
    let canonical_request := String.intercalate "\n"
      [pyUpper method, canonical_uri, canonical_query_string,
       canonical.1, canonical.2, payload_hash]
    let credential_scope :=
      date_stamp ++ "/" ++ auth.region ++ "/" ++ SERVICE ++ "/aws4_request"
    let string_to_sign := String.intercalate "\n"
      [ALGORITHM, amz_date, credential_scope,
       auth.sha256_hash (utf8Bytes canonical_request)]
    let signing_key := auth.get_signature_key date_stamp
    let signature := bytesToHex (hmacSha256 signing_key (utf8Bytes string_to_sign))
    let authorization :=
      ALGORITHM ++ " Credential=" ++ auth.access_key ++ "/" ++ credential_scope ++
      ", SignedHeaders=" ++ canonical.2 ++ ", Signature=" ++ signature
    -- headers["Authorization"] = authorization
    let heap4 := heapSet heap3 rl (dictSet (heapGet heap3 rl) "Authorization" authorization)
    (heap4, Except.ok (heapGet heap4 rl))

/-! ## Reparsing query strings

The round-trip test reads a produced URL back with
`parse_qs(urlparse(url).query)`. `queryTail` extracts the query part and
`parseQueryKeys` models `parse_qs` with its default arguments: split on
`&`, skip empty pieces and pieces without `=`, and drop pairs whose
value is empty (`keep_blank_values=False`). Keys are reported still
percent-encoded; on keys made only of unreserved characters (the case
for every key this development produces or hypothesizes) percent-encoding
is the identity, so the reported keys equal the decoded ones. -/

/-- Everything after the first `?` of a URL (its query string). -/
def queryTail (s : String) : String :=
  match splitAtFirst '?' s.data with
  | none => ""
  | some p => ⟨p.2⟩

/-- The keys of a query string under `parse_qs` defaults, in order. -/
def parseQueryKeys (qs : String) : List String :=
  (splitOnChar '&' qs.data).filterMap (fun piece =>
    if piece = [] then none
    else
      match splitAtFirst '=' piece with
      | none => none
      | some kv => if kv.2 = [] then none else some ⟨kv.1⟩)

/-- The five presign parameters, with their values, in the order
`presign_url` inserts them (before the caller's extras and the final
`X-Amz-Signature`). -/
def presignFixed (auth : AWSV4Auth) (expires_in : Int) (t : Datetime) : Bindings :=
  [("X-Amz-Algorithm", ALGORITHM),
   ("X-Amz-Credential", auth.access_key ++ "/" ++
     (dateStampOf t ++ "/" ++ auth.region ++ "/" ++ SERVICE ++ "/aws4_request")),
   ("X-Amz-Date", amzDateOf t),
   ("X-Amz-Expires", toString expires_in),
   ("X-Amz-SignedHeaders", "host")]

/-- The signature hex `presign_url` computes, as a function of the parse
result and the remaining inputs: the same pipeline as in `presign_url`,
named so that theorems can refer to the component. -/
def presignSignature (auth : AWSV4Auth) (method : String) (pr : ParseResult)
    (expires_in : Int) (qp : Bindings) (t : Datetime) : String :=
  let path := if pr.path = "" then "/" else pr.path
  let host := pr.netloc
  let amz_date := amzDateOf t
  let date_stamp := dateStampOf t
  let credential_scope :=
    date_stamp ++ "/" ++ auth.region ++ "/" ++ SERVICE ++ "/aws4_request"
  let presign_params := dictMerge
    [("X-Amz-Algorithm", ALGORITHM),
     ("X-Amz-Credential", auth.access_key ++ "/" ++ credential_scope),
     ("X-Amz-Date", amz_date),
     ("X-Amz-Expires", toString expires_in),
     ("X-Amz-SignedHeaders", "host")] qp
  let canonical_request := String.intercalate "\n"
    [pyUpper method, auth.get_canonical_uri path,
     auth.get_canonical_query_string presign_params,
     "host:" ++ host ++ "\n", "host", "UNSIGNED-PAYLOAD"]
  let string_to_sign := String.intercalate "\n"
    [ALGORITHM, amz_date, credential_scope,
     auth.sha256_hash (utf8Bytes canonical_request)]
  bytesToHex (hmacSha256 (auth.get_signature_key date_stamp) (utf8Bytes string_to_sign))

/-- The six query-parameter names `presign_url` itself sets. -/
def reservedPresignKeys : List String :=
  ["X-Amz-Algorithm", "X-Amz-Credential", "X-Amz-Date", "X-Amz-Expires",
   "X-Amz-SignedHeaders", "X-Amz-Signature"]

/-- A string made only of unreserved bytes (`A-Z a-z 0-9 - . _ ~`):
percent-encoding leaves such a string unchanged. -/
def isUnreservedStr (s : String) : Bool := s.data.all (fun c => isAlwaysSafe c.toNat)

/-- Is `needle` an initial run of `hay`? -/
def takesLead : List Char → List Char → Bool
  | [], _ => true
  | _ :: _, [] => false
  | c :: cs, d :: ds => c == d && takesLead cs ds

/-- Does `needle` occur contiguously anywhere in `hay`? -/
def occursIn (needle hay : List Char) : Bool :=
  match hay with
  | [] => takesLead needle []
  | _ :: t => takesLead needle hay || occursIn needle t

/-- Substring containment on strings (Python's `needle in hay`). -/
def strOccursIn (needle hay : String) : Bool := occursIn needle.data hay.data

/-- No `/` occurs anywhere after a `=` in the list. Every percent-encoded
query string satisfies this (its only `/`-free bytes come before the `?`),
while the raw-slash credential substring violates it — which is how the
non-containment counterexample avoids evaluating the signature. -/
def noSlashAfterEq : List Char → Bool
  | [] => true
  | c :: t =>
    if c = '=' then t.all (fun d => !(d == '/')) && noSlashAfterEq t
    else noSlashAfterEq t

/-- The signature hex `sign_request` computes, as a function of the parse
result and the remaining inputs: the same pipeline as in `sign_request`,
named so that theorems can refer to the component. -/
def signRequestSignature (auth : AWSV4Auth) (method : String) (pr : ParseResult)
    (headers : Bindings) (body : List Nat) (query_params : Bindings)
    (now : Datetime) : String :=
  let path := if pr.path = "" then "/" else pr.path
  let amz_date := amzDateOf now
  let date_stamp := dateStampOf now
  let headers1 := dictSet (dictSet headers "x-amz-date" amz_date)
    "x-amz-content-sha256" (auth.sha256_hash body)
  let canonical := auth.get_canonical_headers headers1
  let canonical_request := String.intercalate "\n"
    [pyUpper method, auth.get_canonical_uri path,
     auth.get_canonical_query_string query_params,
     canonical.1, canonical.2, auth.sha256_hash body]
  let credential_scope :=
    date_stamp ++ "/" ++ auth.region ++ "/" ++ SERVICE ++ "/aws4_request"
  let string_to_sign := String.intercalate "\n"
    [ALGORITHM, amz_date, credential_scope,
     auth.sha256_hash (utf8Bytes canonical_request)]
  bytesToHex (hmacSha256 (auth.get_signature_key date_stamp) (utf8Bytes string_to_sign))

/-- The sorted normalized header entries `_get_canonical_headers` builds:
names lower-cased, values stripped, deduplicated as a dict, sorted by
name. Both components of `_get_canonical_headers` are images of this one
list. -/
def signedHeadersList (headers : Bindings) : List (String × String) :=
  List.insertionSort entryLe (dictOfList (headers.map (fun p => (pyLower p.1, pyStrip p.2))))

/-- Modelled from the spec, for comparison with the source embedding
(§4.1, canonical headers): lower-case every header name, strip only
leading and trailing whitespace from values, sort by lower-cased name,
emit `name:value\n` for each entry, and join the same names with `;`
for the signed-headers list. -/
def canonicalHeadersSpec (headers : Bindings) : String × String :=
  let entries := List.insertionSort entryLe
    (dictOfList (headers.map (fun p => (pyLower p.1, pyStrip p.2))))
  (String.join (entries.map (fun p => p.1 ++ ":" ++ p.2 ++ "\n")),
   String.intercalate ";" (entries.map Prod.fst))

/-- Modelled from the spec, for comparison with the source embedding
(§4.1, canonical query string): sort entries lexicographically by key,
percent-encode keys and values with `-_.~` safe and the space character
encoded as `%20` (never `+`), join as `key=value` with `&`. -/
def canonicalQueryStringSpec (query_params : Bindings) : String :=
  if query_params = [] then ""
  else
    ⟨interChar '&' ((List.insertionSort entryLe query_params).map
      (fun p => (utf8Bytes p.1).flatMap quoteByte ++ '=' :: (utf8Bytes p.2).flatMap quoteByte))⟩

/-- The credential fixture the determinism properties in the spec use. -/
def tAuth : AWSV4Auth := ⟨"test-access", "test-secret", "us-east-1"⟩

/-- The fixed instant 2024-06-15T12:00:00Z used by the spec's
reproducibility property. -/
def tDate : Datetime := ⟨2024, 6, 15, 12, 0, 0⟩

/-- The parse result of the fixture URL `http://localhost:9000/bucket/key`. -/
def tParse : ParseResult := ⟨"http", "localhost:9000", "/bucket/key", "", "", ""⟩

/-- The URL `presign_url` produces for the fixture call (`GET`,
`http://localhost:9000/bucket/key`, 3600 seconds, no extra parameters,
request date 2024-06-15T12:00:00Z), written structurally with the
signature as an unevaluated term. -/
def presignFixtureUrl : String :=
  tParse.scheme ++ "://" ++ tParse.netloc ++
    (if tParse.path = "" then "/" else tParse.path) ++ "?" ++
    urlencode (presignFixed tAuth 3600 tDate ++ [] ++
      [("X-Amz-Signature", presignSignature tAuth "GET" tParse 3600 [] tDate)])

/-! # Theorems -/

/-! ## Heap lemmas -/

theorem heapGet_heapSet_ne (h : List Bindings) (i r : Nat) (d : Bindings)
    (hne : r ≠ i) : heapGet (heapSet h i d) r = heapGet h r := by
  induction h generalizing i r with
  | nil => rfl
  | cons x t ih =>
    cases i with
    | zero =>
      cases r with
      | zero => exact absurd rfl hne
      | succ r => rfl
    | succ i =>
      cases r with
      | zero => rfl
      | succ r =>
        simpa [heapSet, heapGet] using ih i r (fun hri => hne (by rw [hri]))

theorem heapGet_heapSet_eq (h : List Bindings) (i : Nat) (d : Bindings)
    (hlt : i < h.length) : heapGet (heapSet h i d) i = d := by
  induction h generalizing i with
  | nil => exact absurd hlt (by simp)
  | cons x t ih =>
    cases i with
    | zero => rfl
    | succ i => simpa [heapSet, heapGet] using ih i (by simpa using hlt)

/-! ## Dict lemmas -/

theorem hasKey_append (d e : Bindings) (k : String) :
    hasKey (d ++ e) k = (hasKey d k || hasKey e k) := by
  simp [hasKey, List.any_append]

theorem hasKey_iff (d : Bindings) (k : String) :
    hasKey d k = true ↔ k ∈ d.map Prod.fst := by
  induction d with
  | nil => simp [hasKey]
  | cons p t ih =>
    simp only [hasKey, List.any_cons, List.map_cons, List.mem_cons, Bool.or_eq_true,
      beq_iff_eq] at ih ⊢
    rw [ih]
    constructor
    · rintro (h | h)
      · exact Or.inl h.symm
      · exact Or.inr h
    · rintro (h | h)
      · exact Or.inl h.symm
      · exact Or.inr h

theorem hasKey_map_update (d : Bindings) (k v k' : String) :
    hasKey (d.map (fun p => if p.1 = k then (k, v) else p)) k' = hasKey d k' := by
  induction d with
  | nil => rfl
  | cons p t ih =>
    simp only [List.map_cons, hasKey, List.any_cons] at ih ⊢
    by_cases hp : p.1 = k
    · rw [if_pos hp, ih]
      subst hp
      rfl
    · rw [if_neg hp, ih]

theorem hasKey_dictSet (d : Bindings) (k v k' : String) :
    hasKey (dictSet d k v) k' = (k' == k || hasKey d k') := by
  unfold dictSet
  by_cases h : hasKey d k = true
  · rw [if_pos h, hasKey_map_update]
    by_cases hk : k' = k
    · subst hk
      simp [h]
    · have hbe : (k' == k) = false := by simpa [beq_iff_eq] using hk
      simp [hbe]
  · have h' : hasKey d k = false := by simpa using h
    rw [if_neg (by simp [h']), hasKey_append]
    have hsing : hasKey [(k, v)] k' = (k' == k) := by
      simp [hasKey, beq_iff_eq, eq_comm]
    rw [hsing, Bool.or_comm]

theorem dictSet_fresh (d : Bindings) (k v : String) (h : hasKey d k = false) :
    dictSet d k v = d ++ [(k, v)] := by
  simp [dictSet, h]

theorem dictMerge_fresh (d : Bindings) (e : List (String × String))
    (hnod : (e.map Prod.fst).Nodup) (hfresh : ∀ p ∈ e, hasKey d p.1 = false) :
    dictMerge d e = d ++ e := by
  induction e generalizing d with
  | nil => simp [dictMerge]
  | cons p t ih =>
    rw [List.map_cons] at hnod
    obtain ⟨hpt, hnt⟩ := List.nodup_cons.mp hnod
    have hp : hasKey d p.1 = false := hfresh p (by simp)
    have step : dictMerge d (p :: t) = dictMerge (d ++ [p]) t := by
      simp [dictMerge, dictSet_fresh d p.1 p.2 hp]
    rw [step, ih (d ++ [p]) hnt]
    · simp
    · intro q hq
      rw [hasKey_append]
      have h1 : hasKey d q.1 = false := hfresh q (by simp [hq])
      have h2 : q.1 ≠ p.1 := by
        intro he
        exact hpt (he ▸ List.mem_map_of_mem Prod.fst hq)
      have h3 : hasKey [p] q.1 = false := by
        simp only [hasKey, List.any_cons, List.any_nil, Bool.or_false]
        exact beq_eq_false_iff_ne.mpr (fun he => h2 he.symm)
      rw [h1, h3]
      rfl

theorem hasKey_dictOfList (ps : List (String × String)) (k : String) :
    hasKey (dictOfList ps) k = true ↔ k ∈ ps.map Prod.fst := by
  have gen : ∀ d : Bindings,
      (hasKey (ps.foldl (fun d p => dictSet d p.1 p.2) d) k = true ↔
        (hasKey d k = true ∨ k ∈ ps.map Prod.fst)) := by
    induction ps with
    | nil => intro d; simp
    | cons p t ih =>
      intro d
      simp only [List.foldl_cons, ih, hasKey_dictSet, List.map_cons, List.mem_cons,
        Bool.or_eq_true, beq_iff_eq]
      tauto
  rw [dictOfList, gen []]
  simp [hasKey]

/-! ## Split and join lemmas -/

theorem splitAtFirst_cons_append (c : Char) (a b : List Char) (ha : c ∉ a) :
    splitAtFirst c (a ++ c :: b) = some (a, b) := by
  induction a with
  | nil => simp [splitAtFirst]
  | cons d t ih =>
    have hdc : ¬ d = c := fun h => ha (by simp [h])
    have ht : c ∉ t := fun h => ha (List.mem_cons_of_mem _ h)
    simp [splitAtFirst, hdc, ih ht]

theorem splitOnChar_no_sep (c : Char) (x : List Char) (hx : c ∉ x) :
    splitOnChar c x = [x] := by
  induction x with
  | nil => rfl
  | cons d t ih =>
    have hdc : ¬ d = c := fun h => hx (by simp [h])
    have ht : c ∉ t := fun h => hx (List.mem_cons_of_mem _ h)
    simp [splitOnChar, hdc, ih ht]

theorem splitOnChar_sep_append (c : Char) (x r : List Char) (hx : c ∉ x) :
    splitOnChar c (x ++ c :: r) = x :: splitOnChar c r := by
  induction x with
  | nil => simp [splitOnChar]
  | cons d t ih =>
    have hdc : ¬ d = c := fun h => hx (by simp [h])
    have ht : c ∉ t := fun h => hx (List.mem_cons_of_mem _ h)
    simp [splitOnChar, hdc, ih ht]

theorem splitOnChar_interChar (c : Char) (ps : List (List Char)) (hne : ps ≠ [])
    (hnc : ∀ p ∈ ps, c ∉ p) : splitOnChar c (interChar c ps) = ps := by
  induction ps with
  | nil => cases hne rfl
  | cons x t ih =>
    cases t with
    | nil => exact splitOnChar_no_sep c x (hnc x (by simp))
    | cons y t2 =>
      have h1 : interChar c (x :: y :: t2) = x ++ c :: interChar c (y :: t2) := rfl
      rw [h1, splitOnChar_sep_append c x _ (hnc x (by simp)),
        ih (by simp) (fun p hp => hnc p (by simp [hp]))]

theorem interChar_append (c : Char) (xs ys : List (List Char)) (hx : xs ≠ [])
    (hy : ys ≠ []) :
    interChar c (xs ++ ys) = interChar c xs ++ c :: interChar c ys := by
  induction xs with
  | nil => cases hx rfl
  | cons x t ih =>
    cases t with
    | nil =>
      cases ys with
      | nil => cases hy rfl
      | cons y t2 => rfl
    | cons z t2 =>
      have hz := ih (by simp)
      calc interChar c ((x :: z :: t2) ++ ys)
          = x ++ c :: interChar c ((z :: t2) ++ ys) := rfl
        _ = x ++ c :: (interChar c (z :: t2) ++ c :: interChar c ys) := by rw [hz]
        _ = (x ++ c :: interChar c (z :: t2)) ++ c :: interChar c ys := by simp
        _ = interChar c (x :: z :: t2) ++ c :: interChar c ys := rfl

/-! ## Substring containment lemmas -/

theorem takesLead_append (n h t : List Char) (hl : takesLead n h = true) :
    takesLead n (h ++ t) = true := by
  induction n generalizing h with
  | nil => rfl
  | cons c cs ih =>
    cases h with
    | nil => cases hl
    | cons d ds =>
      simp only [takesLead, Bool.and_eq_true] at hl
      simp only [List.cons_append, takesLead, Bool.and_eq_true]
      exact ⟨hl.1, ih ds hl.2⟩

theorem occursIn_append_left (n a b : List Char) (h : occursIn n a = true) :
    occursIn n (a ++ b) = true := by
  induction a with
  | nil =>
    cases n with
    | nil =>
      cases b with
      | nil => exact h
      | cons d t => simp [occursIn, takesLead]
    | cons c cs => cases h
  | cons d t ih =>
    simp only [occursIn, Bool.or_eq_true] at h
    simp only [List.cons_append, occursIn, Bool.or_eq_true]
    rcases h with h | h
    · exact Or.inl (takesLead_append _ _ _ h)
    · exact Or.inr (ih h)

theorem occursIn_append_right (n a b : List Char) (h : occursIn n b = true) :
    occursIn n (a ++ b) = true := by
  induction a with
  | nil => exact h
  | cons d t ih =>
    simp only [List.cons_append, occursIn, Bool.or_eq_true]
    exact Or.inr ih

/-! ## UTF-8 and percent-encoding lemmas -/

theorem utf8EncodeChar_lt (c : Char) : ∀ b ∈ utf8EncodeChar c, b < 256 := by
  intro b hb
  have hval : c.toNat < 0x110000 := by
    have hv := c.valid
    rcases hv with h | ⟨_, h⟩
    · calc c.val.toNat < 0xd800 := h
        _ < 0x110000 := by omega
    · exact h
  have hor : ∀ x y : Nat, x < 256 → y < 256 → x ||| y < 256 := by
    intro x y hx hy
    exact Nat.or_lt_two_pow (n := 8) hx hy
  have hand : ∀ x : Nat, x &&& 63 < 256 :=
    fun x => lt_of_le_of_lt Nat.and_le_right (by omega)
  have hshr : ∀ x k : Nat, x >>> k = x / 2 ^ k := fun x k => Nat.shiftRight_eq_div_pow x k
  unfold utf8EncodeChar at hb
  by_cases h1 : c.toNat < 0x80
  · simp [h1] at hb
    omega
  · by_cases h2 : c.toNat < 0x800
    · simp only [h1, h2, if_true, if_false, List.mem_cons, List.not_mem_nil, or_false,
        ite_true, ite_false] at hb
      have h6 : c.toNat >>> 6 < 256 := by rw [hshr]; omega
      rcases hb with rfl | rfl
      · exact hor _ _ (by omega) h6
      · exact hor _ _ (by omega) (hand _)
    · by_cases h3 : c.toNat < 0x10000
      · simp only [h1, h2, h3, if_true, if_false, List.mem_cons, List.not_mem_nil, or_false,
          ite_true, ite_false] at hb
        have h12 : c.toNat >>> 12 < 256 := by rw [hshr]; omega
        rcases hb with rfl | rfl | rfl
        · exact hor _ _ (by omega) h12
        · exact hor _ _ (by omega) (hand _)
        · exact hor _ _ (by omega) (hand _)
      · simp only [h1, h2, h3, if_true, if_false, List.mem_cons, List.not_mem_nil, or_false,
          ite_true, ite_false] at hb
        have h18 : c.toNat >>> 18 < 256 := by rw [hshr]; omega
        rcases hb with rfl | rfl | rfl | rfl
        · exact hor _ _ (by omega) h18
        · exact hor _ _ (by omega) (hand _)
        · exact hor _ _ (by omega) (hand _)
        · exact hor _ _ (by omega) (hand _)

theorem utf8Bytes_lt (s : String) : ∀ b ∈ utf8Bytes s, b < 256 := by
  intro b hb
  obtain ⟨c, _, hc⟩ := List.mem_flatMap.mp hb
  exact utf8EncodeChar_lt c b hc

theorem quotePlusByte_no_sep :
    ∀ b < 256, ('&' ∈ quotePlusByte b) = false ∧ ('=' ∈ quotePlusByte b) = false := by
  decide

theorem quotePlusChars_no_amp (s : String) : '&' ∉ quotePlusChars s := by
  intro h
  obtain ⟨b, hb, hc⟩ := List.mem_flatMap.mp h
  have := (quotePlusByte_no_sep b (utf8Bytes_lt s b hb)).1
  rw [this] at hc
  cases hc

theorem quotePlusChars_no_eq (s : String) : '=' ∉ quotePlusChars s := by
  intro h
  obtain ⟨b, hb, hc⟩ := List.mem_flatMap.mp h
  have := (quotePlusByte_no_sep b (utf8Bytes_lt s b hb)).2
  rw [this] at hc
  cases hc

theorem quotePlusByte_no_slash :
    ∀ b < 256, ('/' ∈ quotePlusByte b) = false := by
  decide

theorem quotePlusChars_no_slash (s : String) : '/' ∉ quotePlusChars s := by
  intro h
  obtain ⟨b, hb, hc⟩ := List.mem_flatMap.mp h
  have := quotePlusByte_no_slash b (utf8Bytes_lt s b hb)
  rw [this] at hc
  cases hc

theorem isAlwaysSafe_facts (b : Nat) (h : isAlwaysSafe b = true) :
    b < 128 ∧ b ≠ 32 := by
  simp only [isAlwaysSafe, Bool.or_eq_true, Bool.and_eq_true, decide_eq_true_eq,
    beq_iff_eq] at h
  omega

theorem quotePlus_unreserved (s : String) (h : isUnreservedStr s = true) :
    quotePlusChars s = s.data := by
  have hall : ∀ c ∈ s.data, isAlwaysSafe c.toNat = true := by
    intro c hc
    exact List.all_eq_true.mp h c hc
  show (utf8Bytes s).flatMap quotePlusByte = s.data
  unfold utf8Bytes
  have gen : ∀ l : List Char, (∀ c ∈ l, isAlwaysSafe c.toNat = true) →
      (l.flatMap utf8EncodeChar).flatMap quotePlusByte = l := by
    intro l hl
    induction l with
    | nil => rfl
    | cons c t ih =>
      have hc : isAlwaysSafe c.toNat = true := hl c (by simp)
      obtain ⟨hlt, hne⟩ := isAlwaysSafe_facts c.toNat hc
      have henc : utf8EncodeChar c = [c.toNat] := by
        unfold utf8EncodeChar
        rw [if_pos (by omega)]
      have hqpb : quotePlusByte c.toNat = [c] := by
        unfold quotePlusByte
        rw [if_neg (by simpa using hne), if_pos hc, Char.ofNat_toNat]
      rw [List.flatMap_cons, List.flatMap_append, henc, ih (fun d hd => hl d (by simp [hd]))]
      show [c.toNat].flatMap quotePlusByte ++ t = c :: t
      simp [hqpb]
  exact gen s.data hall

theorem utf8EncodeChar_ne_nil (c : Char) : utf8EncodeChar c ≠ [] := by
  unfold utf8EncodeChar
  by_cases h1 : c.toNat < 0x80
  · simp [h1]
  · by_cases h2 : c.toNat < 0x800
    · simp [h1, h2]
    · by_cases h3 : c.toNat < 0x10000
      · simp [h1, h2, h3]
      · simp [h1, h2, h3]

theorem quotePlusByte_ne_nil (b : Nat) : quotePlusByte b ≠ [] := by
  unfold quotePlusByte
  by_cases h1 : b == 32
  · simp [h1]
  · by_cases h2 : isAlwaysSafe b
    · simp [h1, h2]
    · simp [h1, h2]

theorem data_ne_nil_of_ne_empty (s : String) (h : s ≠ "") : s.data ≠ [] := by
  intro hd
  exact h (String.ext hd)

theorem quotePlusChars_ne_nil (s : String) (h : s ≠ "") : quotePlusChars s ≠ [] := by
  have hd := data_ne_nil_of_ne_empty s h
  show (utf8Bytes s).flatMap quotePlusByte ≠ []
  unfold utf8Bytes
  cases hc : s.data with
  | nil => exact absurd hc hd
  | cons c t =>
    rw [List.flatMap_cons]
    cases he : utf8EncodeChar c with
    | nil => exact absurd he (utf8EncodeChar_ne_nil c)
    | cons b bs =>
      rw [List.flatMap_append]
      show ((b :: bs).flatMap quotePlusByte ++ _) ≠ []
      rw [List.flatMap_cons]
      cases hq : quotePlusByte b with
      | nil => exact absurd hq (quotePlusByte_ne_nil b)
      | cons e es => simp

/-! ## Decimal representations are never empty -/

theorem toDigitsCore_length_ge (b f n : Nat) (l : List Char) :
    l.length ≤ (Nat.toDigitsCore b f n l).length := by
  induction f generalizing n l with
  | zero => simp [Nat.toDigitsCore]
  | succ f ih =>
    simp only [Nat.toDigitsCore]
    split
    · simp
    · calc l.length ≤ (Nat.digitChar (n % b) :: l).length := by simp
        _ ≤ _ := ih (n / b) (Nat.digitChar (n % b) :: l)

theorem toDigitsCore_ne_nil (b f n : Nat) (l : List Char) (hf : 0 < f) :
    Nat.toDigitsCore b f n l ≠ [] := by
  cases f with
  | zero => cases hf
  | succ f =>
    simp only [Nat.toDigitsCore]
    split
    · simp
    · intro hnil
      have := toDigitsCore_length_ge b f (n / b) (Nat.digitChar (n % b) :: l)
      rw [hnil] at this
      simp at this

theorem natRepr_data_ne_nil (n : Nat) : (Nat.repr n).data ≠ [] := by
  show Nat.toDigits 10 n ≠ []
  exact toDigitsCore_ne_nil 10 (n + 1) n [] (by omega)

theorem intToString_ne_empty (i : Int) : toString i ≠ "" := by
  show Int.repr i ≠ ""
  intro h
  have hd := congrArg String.data h
  cases i with
  | ofNat m => exact natRepr_data_ne_nil m hd
  | negSucc m =>
    rw [Int.repr] at hd
    rw [String.data_append] at hd
    simp at hd

/-! ## String and digest length lemmas -/

theorem mk_data (s : String) : (⟨s.data⟩ : String) = s := by
  cases s
  rfl

theorem natToBytesBE_length (n x : Nat) : (natToBytesBE n x).length = n := by
  induction n generalizing x with
  | zero => rfl
  | succ k ih => simp [natToBytesBE, ih]

theorem shaCompress_length (h b : List Nat) (hh : h.length = 8) :
    (shaCompress h b).length = 8 := by
  rcases h with _ | ⟨a1, _ | ⟨a2, _ | ⟨a3, _ | ⟨a4, _ | ⟨a5, _ | ⟨a6, _ | ⟨a7, _ | ⟨a8, _ | ⟨a9, t⟩⟩⟩⟩⟩⟩⟩⟩⟩ <;>
    simp_all [shaCompress]

theorem foldl_shaCompress_length (blocks : List (List Nat)) (h : List Nat)
    (hh : h.length = 8) : (blocks.foldl shaCompress h).length = 8 := by
  induction blocks generalizing h with
  | nil => exact hh
  | cons b t ih => exact ih (shaCompress h b) (shaCompress_length h b hh)

theorem sha256_length (msg : List Nat) : (sha256 msg).length = 32 := by
  unfold sha256
  have h8 : ((splitBlocks (bytesToWords (shaPad msg))).foldl shaCompress shaH0).length = 8 :=
    foldl_shaCompress_length _ shaH0 rfl
  have hfm : ∀ l : List Nat, (l.flatMap (natToBytesBE 4)).length = 4 * l.length := by
    intro l
    induction l with
    | nil => rfl
    | cons x t ih => simp [List.flatMap_cons, ih, natToBytesBE_length]; omega
  rw [hfm, h8]

theorem hmacSha256_length (key msg : List Nat) : (hmacSha256 key msg).length = 32 :=
  sha256_length _

theorem bytesToHex_data_length (bs : List Nat) :
    (bytesToHex bs).data.length = 2 * bs.length := by
  show (bs.flatMap byteToHex).length = 2 * bs.length
  induction bs with
  | nil => rfl
  | cons b t ih => simp [List.flatMap_cons, byteToHex, ih]; omega

theorem hmac_hex_ne_empty (key msg : List Nat) : bytesToHex (hmacSha256 key msg) ≠ "" := by
  intro h
  have := congrArg String.data h
  rw [show ("" : String).data = [] from rfl] at this
  have hlen := bytesToHex_data_length (hmacSha256 key msg)
  rw [this, hmacSha256_length] at hlen
  simp at hlen

/-! ## Reparsing an `urlencode` result -/

theorem encodePair_ne_nil (p : String × String) : encodePair p ≠ [] := by
  unfold encodePair
  cases quotePlusChars p.1 <;> simp

theorem encodePair_no_amp (p : String × String) : '&' ∉ encodePair p := by
  unfold encodePair
  intro h
  rcases List.mem_append.mp h with h | h
  · exact quotePlusChars_no_amp p.1 h
  · rcases List.mem_cons.mp h with h | h
    · cases h
    · exact quotePlusChars_no_amp p.2 h

theorem splitAtFirst_encodePair (p : String × String) :
    splitAtFirst '=' (encodePair p) = some (quotePlusChars p.1, quotePlusChars p.2) :=
  splitAtFirst_cons_append '=' _ _ (quotePlusChars_no_eq p.1)

theorem filterMap_encodePair (ps : List (String × String))
    (hvals : ∀ p ∈ ps, p.2 ≠ "") :
    (ps.map encodePair).filterMap (fun piece =>
      if piece = [] then none
      else match splitAtFirst '=' piece with
        | none => none
        | some kv => if kv.2 = [] then none else some (⟨kv.1⟩ : String)) =
    ps.map (fun p => (⟨quotePlusChars p.1⟩ : String)) := by
  induction ps with
  | nil => rfl
  | cons p t ih =>
    have hv : quotePlusChars p.2 ≠ [] :=
      quotePlusChars_ne_nil p.2 (hvals p (by simp))
    simp only [List.map_cons, List.filterMap_cons, encodePair_ne_nil p, if_neg,
      splitAtFirst_encodePair p, hv, ih (fun q hq => hvals q (by simp [hq]))]
    simp

theorem parseQueryKeys_urlencode (ps : List (String × String)) (hne : ps ≠ [])
    (hvals : ∀ p ∈ ps, p.2 ≠ "") :
    parseQueryKeys (urlencode ps) =
      ps.map (fun p => (⟨quotePlusChars p.1⟩ : String)) := by
  unfold parseQueryKeys urlencode
  have hdata : (⟨interChar '&' (ps.map encodePair)⟩ : String).data
      = interChar '&' (ps.map encodePair) := rfl
  rw [hdata, splitOnChar_interChar '&' (ps.map encodePair) (by simpa using hne)
    (fun piece hp => by
      obtain ⟨q, _, rfl⟩ := List.mem_map.mp hp
      exact encodePair_no_amp q)]
  exact filterMap_encodePair ps hvals

/-! ## Structure of a presigned URL -/

theorem hasKey_presignFixed (auth : AWSV4Auth) (e : Int) (t : Datetime) (k : String)
    (hk : k ∉ reservedPresignKeys) : hasKey (presignFixed auth e t) k = false := by
  have hne : ¬ (hasKey (presignFixed auth e t) k = true) := by
    rw [hasKey_iff]
    intro hmem
    apply hk
    simp only [presignFixed, List.map_cons, List.map_nil, List.mem_cons,
      List.not_mem_nil, or_false] at hmem
    simp only [reservedPresignKeys, List.mem_cons, List.not_mem_nil]
    rcases hmem with h | h | h | h | h <;> simp [h]
  simpa using hne

theorem hasKey_disjoint (qp : Bindings) (hdisj : ∀ p ∈ qp, p.1 ∉ reservedPresignKeys)
    (k : String) (hk : k ∈ reservedPresignKeys) : hasKey qp k = false := by
  have hne : ¬ (hasKey qp k = true) := by
    rw [hasKey_iff]
    intro hmem
    obtain ⟨p, hp, rfl⟩ := List.mem_map.mp hmem
    exact hdisj p hp hk
  simpa using hne

theorem hasKey_presignFixed_sig (auth : AWSV4Auth) (e : Int) (t : Datetime) :
    hasKey (presignFixed auth e t) "X-Amz-Signature" = false := by
  have hne : ¬ (hasKey (presignFixed auth e t) "X-Amz-Signature" = true) := by
    rw [hasKey_iff]
    simp only [presignFixed, List.map_cons, List.map_nil, List.mem_cons,
      List.not_mem_nil, or_false]
    decide
  simpa using hne

theorem presign_url_eq (auth : AWSV4Auth) (method url : String) (expires_in : Int)
    (qp : Bindings) (t : Datetime) (pr : ParseResult)
    (hparse : urlparse url = Except.ok pr) :
    auth.presign_url method url expires_in qp t = Except.ok
      (pr.scheme ++ "://" ++ pr.netloc ++ (if pr.path = "" then "/" else pr.path) ++ "?" ++
        urlencode (dictSet (dictMerge (presignFixed auth expires_in t) qp) "X-Amz-Signature"
          (presignSignature auth method pr expires_in qp t))) := by
  unfold AWSV4Auth.presign_url
  rw [hparse]
  rfl

theorem presign_url_structure (auth : AWSV4Auth) (method url : String) (expires_in : Int)
    (qp : Bindings) (t : Datetime) (pr : ParseResult)
    (hparse : urlparse url = Except.ok pr)
    (hnod : (qp.map Prod.fst).Nodup)
    (hdisj : ∀ p ∈ qp, p.1 ∉ reservedPresignKeys) :
    auth.presign_url method url expires_in qp t = Except.ok
      (pr.scheme ++ "://" ++ pr.netloc ++ (if pr.path = "" then "/" else pr.path) ++ "?" ++
        urlencode (presignFixed auth expires_in t ++ qp ++
          [("X-Amz-Signature", presignSignature auth method pr expires_in qp t)])) := by
  rw [presign_url_eq auth method url expires_in qp t pr hparse]
  rw [dictMerge_fresh _ qp hnod
    (fun p hp => hasKey_presignFixed auth expires_in t p.1 (hdisj p hp))]
  have hfree : hasKey (presignFixed auth expires_in t ++ qp) "X-Amz-Signature" = false := by
    rw [hasKey_append, hasKey_presignFixed_sig,
      hasKey_disjoint qp hdisj "X-Amz-Signature" (by simp [reservedPresignKeys])]
    rfl
  rw [dictSet_fresh _ _ _ hfree]

theorem presignSignature_ne_empty (auth : AWSV4Auth) (method : String)
    (pr : ParseResult) (e : Int) (qp : Bindings) (t : Datetime) :
    presignSignature auth method pr e qp t ≠ "" :=
  hmac_hex_ne_empty _ _

theorem append_ne_empty_right (a b : String) (hb : b ≠ "") : a ++ b ≠ "" := by
  intro h
  have hd := congrArg String.data h
  rw [String.data_append] at hd
  rcases List.append_eq_nil.mp hd with ⟨_, h2⟩
  exact hb (String.ext h2)

theorem queryTail_concat (a qs : String) (ha : '?' ∉ a.data) :
    queryTail (a ++ "?" ++ qs) = qs := by
  unfold queryTail
  have hd : (a ++ "?" ++ qs).data = a.data ++ '?' :: qs.data := by
    rw [String.data_append, String.data_append]
    simp [show ("?" : String).data = ['?'] from rfl]
  rw [hd, splitAtFirst_cons_append '?' a.data qs.data ha]

/-- Reparsing the query string of a presigned URL: the keys come out as
the five fixed parameters, then the caller's extras, then
`X-Amz-Signature` — in insertion order. -/
theorem presign_query_keys (auth : AWSV4Auth) (method url : String) (expires_in : Int)
    (qp : Bindings) (t : Datetime) (pr : ParseResult) (u : String)
    (hparse : urlparse url = Except.ok pr)
    (hnod : (qp.map Prod.fst).Nodup)
    (hdisj : ∀ p ∈ qp, p.1 ∉ reservedPresignKeys)
    (hkeys : ∀ p ∈ qp, isUnreservedStr p.1 = true)
    (hvals : ∀ p ∈ qp, p.2 ≠ "")
    (hq : '?' ∉ (pr.scheme ++ "://" ++ pr.netloc ++
      (if pr.path = "" then "/" else pr.path)).data)
    (hu : auth.presign_url method url expires_in qp t = Except.ok u) :
    parseQueryKeys (queryTail u) =
      ["X-Amz-Algorithm", "X-Amz-Credential", "X-Amz-Date", "X-Amz-Expires",
       "X-Amz-SignedHeaders"] ++ qp.map Prod.fst ++ ["X-Amz-Signature"] := by
  have hs := presign_url_structure auth method url expires_in qp t pr hparse hnod hdisj
  rw [hu] at hs
  have hu2 := Except.ok.inj hs
  subst hu2
  rw [queryTail_concat _ _ hq]
  have hvnonempty : ∀ p ∈ presignFixed auth expires_in t ++ qp ++
      [("X-Amz-Signature", presignSignature auth method pr expires_in qp t)], p.2 ≠ "" := by
    intro p hp
    rcases List.mem_append.mp hp with hp | hp
    · rcases List.mem_append.mp hp with hp | hp
      · simp only [presignFixed, List.mem_cons, List.not_mem_nil, or_false] at hp
        rcases hp with rfl | rfl | rfl | rfl | rfl
        · decide
        · exact append_ne_empty_right _ _
            (append_ne_empty_right _ _ (by decide))
        · exact append_ne_empty_right _ _ (by decide)
        · exact intToString_ne_empty expires_in
        · decide
      · exact hvals p hp
    · simp only [List.mem_singleton] at hp
      subst hp
      exact presignSignature_ne_empty auth method pr expires_in qp t
  rw [parseQueryKeys_urlencode _ (by simp [presignFixed]) hvnonempty]
  rw [List.map_append, List.map_append]
  have h1 : (presignFixed auth expires_in t).map
      (fun p => (⟨quotePlusChars p.1⟩ : String)) =
      ["X-Amz-Algorithm", "X-Amz-Credential", "X-Amz-Date", "X-Amz-Expires",
       "X-Amz-SignedHeaders"] := by
    simp only [presignFixed, List.map_cons, List.map_nil]
    decide
  have h2 : qp.map (fun p => (⟨quotePlusChars p.1⟩ : String)) = qp.map Prod.fst := by
    refine List.map_congr_left ?_
    intro p hp
    rw [quotePlus_unreserved p.1 (hkeys p hp)]
  have h3 : [("X-Amz-Signature", presignSignature auth method pr expires_in qp t)].map
      (fun p => (⟨quotePlusChars p.1⟩ : String)) = ["X-Amz-Signature"] := by
    simp only [List.map_cons, List.map_nil]
    decide
  rw [h1, h2, h3]

/-! ## The header order is a total preorder, so the emitted entries are
really sorted -/

theorem charListLe_total (a b : List Char) :
    charListLe a b = true ∨ charListLe b a = true := by
  induction a generalizing b with
  | nil => exact Or.inl rfl
  | cons x xs ih =>
    cases b with
    | nil => exact Or.inr rfl
    | cons y ys =>
      by_cases hxy : x = y
      · subst hxy
        simp only [charListLe, if_pos rfl]
        exact ih ys
      · rcases lt_or_gt_of_ne hxy with h | h
        · exact Or.inl (by simp [charListLe, hxy, h])
        · refine Or.inr ?_
          have hyx : ¬ y = x := fun he => hxy he.symm
          simp [charListLe, hyx, h]

theorem charListLe_trans (a b c : List Char) (h1 : charListLe a b = true)
    (h2 : charListLe b c = true) : charListLe a c = true := by
  induction a generalizing b c with
  | nil => rfl
  | cons x xs ih =>
    cases b with
    | nil => cases h1
    | cons y ys =>
      cases c with
      | nil => cases h2
      | cons z zs =>
        by_cases hxy : x = y
        · subst hxy
          simp only [charListLe, if_pos rfl] at h1
          by_cases hyz : x = z
          · subst hyz
            simp only [charListLe, if_pos rfl] at h2 ⊢
            exact ih ys zs h1 h2
          · simp only [charListLe, if_neg hyz] at h2 ⊢
            exact h2
        · simp only [charListLe, if_neg hxy, decide_eq_true_eq] at h1
          by_cases hyz : y = z
          · subst hyz
            simp [charListLe, hxy, h1]
          · simp only [charListLe, if_neg hyz, decide_eq_true_eq] at h2
            have hxz : x < z := lt_trans h1 h2
            simp [charListLe, ne_of_lt hxz, hxz]

instance : IsTotal (String × String) entryLe :=
  ⟨fun a b => charListLe_total a.1.data b.1.data⟩

instance : IsTrans (String × String) entryLe :=
  ⟨fun a b c => charListLe_trans a.1.data b.1.data c.1.data⟩

theorem signedHeadersList_sorted (headers : Bindings) :
    List.Sorted entryLe (signedHeadersList headers) :=
  List.sorted_insertionSort entryLe _

/-! ## Structure of `sign_request` -/

theorem get_canonical_headers_eq (auth : AWSV4Auth) (hs : Bindings) :
    auth.get_canonical_headers hs =
      (String.join ((signedHeadersList hs).map (fun p => p.1 ++ ":" ++ p.2 ++ "\n")),
       String.intercalate ";" ((signedHeadersList hs).map Prod.fst)) := rfl

theorem sign_request_eq (auth : AWSV4Auth) (method url : String) (headers : Bindings)
    (body : List Nat) (qp : Bindings) (now : Datetime) (pr : ParseResult)
    (hparse : urlparse url = Except.ok pr) :
    auth.sign_request method url headers body qp now = Except.ok
      (dictSet (dictSet (dictSet headers "x-amz-date" (amzDateOf now))
        "x-amz-content-sha256" (auth.sha256_hash body)) "Authorization"
        (ALGORITHM ++ " Credential=" ++ auth.access_key ++ "/" ++
          (dateStampOf now ++ "/" ++ auth.region ++ "/" ++ SERVICE ++ "/aws4_request") ++
          ", SignedHeaders=" ++
          String.intercalate ";" ((signedHeadersList (dictSet (dictSet headers "x-amz-date"
            (amzDateOf now)) "x-amz-content-sha256" (auth.sha256_hash body))).map Prod.fst) ++
          ", Signature=" ++ signRequestSignature auth method pr headers body qp now)) := by
  unfold AWSV4Auth.sign_request
  rw [hparse]
  rfl

theorem mem_signedHeadersList (hs : Bindings) (k : String)
    (hk : hasKey hs k = true) (hlow : pyLower k = k) :
    k ∈ (signedHeadersList hs).map Prod.fst := by
  have h1 : k ∈ hs.map Prod.fst := (hasKey_iff hs k).mp hk
  obtain ⟨p, hp, hpk⟩ := List.mem_map.mp h1
  have h2 : k ∈ (hs.map (fun p => (pyLower p.1, pyStrip p.2))).map Prod.fst := by
    rw [List.map_map]
    refine List.mem_map.mpr ⟨p, hp, ?_⟩
    show pyLower p.1 = k
    rw [hpk, hlow]
  have h3 : k ∈ (dictOfList (hs.map (fun p => (pyLower p.1, pyStrip p.2)))).map Prod.fst :=
    (hasKey_iff _ _).mp ((hasKey_dictOfList _ _).mpr h2)
  unfold signedHeadersList
  exact ((List.perm_insertionSort entryLe _).map Prod.fst).mem_iff.mpr h3

theorem hasKey_injected_date (headers : Bindings) (a h : String) :
    hasKey (dictSet (dictSet headers "x-amz-date" a) "x-amz-content-sha256" h)
      "x-amz-date" = true := by
  rw [hasKey_dictSet, hasKey_dictSet]
  simp

theorem hasKey_injected_hash (headers : Bindings) (a h : String) :
    hasKey (dictSet (dictSet headers "x-amz-date" a) "x-amz-content-sha256" h)
      "x-amz-content-sha256" = true := by
  rw [hasKey_dictSet]
  simp

/-! ## Heap collapse lemmas -/

theorem heapSet_length (h : List Bindings) (i : Nat) (d : Bindings) :
    (heapSet h i d).length = h.length := by
  induction h generalizing i with
  | nil => rfl
  | cons x t ih =>
    cases i with
    | zero => rfl
    | succ i => simp [heapSet, ih]

theorem heapGet_append_self (h : List Bindings) (d : Bindings) :
    heapGet (h ++ [d]) h.length = d := by
  induction h with
  | nil => rfl
  | cons x t ih => simp [heapGet] at ih ⊢

theorem heapGet_append_lt (h : List Bindings) (d : Bindings) (r : Nat)
    (hr : r < h.length) : heapGet (h ++ [d]) r = heapGet h r := by
  induction h generalizing r with
  | nil => cases hr
  | cons x t ih =>
    cases r with
    | zero => rfl
    | succ r => simpa [heapGet] using ih r (by simpa using hr)

theorem heapSet_append_self (h : List Bindings) (d e : Bindings) :
    heapSet (h ++ [d]) h.length e = h ++ [e] := by
  induction h with
  | nil => rfl
  | cons x t ih => simpa [heapSet] using ih

/-- C10: `sign_request` never mutates the caller's headers mapping: in
the heap-level replay, the dict object at the caller's index `r` is
unchanged after the call — the two injected headers and `Authorization`
are set only on the fresh `dict(headers)` copy — and the returned result
is the functional embedding applied to the caller's dict. -/
theorem C10_sign_request_no_mutation (auth : AWSV4Auth) (method url : String)
    (heap : List Bindings) (r : Nat) (body : List Nat) (qp : Bindings)
    (now : Datetime) (hr : r < heap.length) :
    heapGet (auth.sign_request_heap method url heap r body qp now).1 r = heapGet heap r ∧
    (auth.sign_request_heap method url heap r body qp now).2 =
      auth.sign_request method url (heapGet heap r) body qp now := by
  unfold AWSV4Auth.sign_request_heap AWSV4Auth.sign_request
  cases hp : urlparse url with
  | error e => exact ⟨rfl, rfl⟩
  | ok pr =>
    simp only [heapSet_append_self, heapGet_append_self]
    constructor
    · exact heapGet_append_lt heap _ r hr
    · trivial

theorem C10_sign_request_no_mutation_witness :
    heapGet ((tAuth.sign_request_heap "GET" "http://localhost:9000/b"
      [[("host", "localhost:9000")]] 0 [] [] tDate).1) 0 = [("host", "localhost:9000")] :=
  (C10_sign_request_no_mutation tAuth "GET" "http://localhost:9000/b"
    [[("host", "localhost:9000")]] 0 [] [] tDate (by decide)).1

/-! ## The claims on canonicalization and key derivation -/

/-- C1 (code bug): the canonical query string sorts by key and is
order-independent on the example maps, but spaces are encoded as `+`
(`urlencode` defaults to `quote_plus`), not `%20` as the spec's reference
definition demands — evaluated here at the failing input `a ↦ b c`. -/
theorem C1_canonical_query_space :
    tAuth.get_canonical_query_string [("b", "2"), ("a", "1")] = "a=1&b=2" ∧
    tAuth.get_canonical_query_string [("a", "1"), ("b", "2")] = "a=1&b=2" ∧
    tAuth.get_canonical_query_string [("a", "b c")] = "a=b+c" ∧
    canonicalQueryStringSpec [("a", "b c")] = "a=b%20c" ∧
    tAuth.get_canonical_query_string [("a", "b c")] ≠
      canonicalQueryStringSpec [("a", "b c")] :=
  ⟨by decide, by decide, by decide, by decide, by decide⟩

/-- C2: signing is deterministic — two `sign_request` calls with equal
credential, method, url, headers, body, query parameters and clock
value, and two `presign_url` calls with equal credential fields, method,
url, expiry, query parameters and request date, produce identical
output; no state outside these inputs enters the result. -/
theorem C2_signing_deterministic (a1 a2 : AWSV4Auth) (m1 m2 u1 u2 : String)
    (h1 h2 : Bindings) (b1 b2 : List Nat) (q1 q2 : Bindings)
    (t1 t2 : Datetime) (e1 e2 : Int)
    (ha : a1 = a2) (hm : m1 = m2) (hu : u1 = u2) (hh : h1 = h2) (hb : b1 = b2)
    (hq : q1 = q2) (ht : t1 = t2) (he : e1 = e2) :
    a1.sign_request m1 u1 h1 b1 q1 t1 = a2.sign_request m2 u2 h2 b2 q2 t2 ∧
    a1.presign_url m1 u1 e1 q1 t1 = a2.presign_url m2 u2 e2 q2 t2 := by
  subst ha hm hu hh hb hq ht he
  exact ⟨rfl, rfl⟩

theorem C2_signing_deterministic_witness :
    tAuth.sign_request "GET" "http://localhost:9000/b" [("host", "localhost:9000")] [] [] tDate =
      tAuth.sign_request "GET" "http://localhost:9000/b" [("host", "localhost:9000")] [] [] tDate ∧
    tAuth.presign_url "GET" "http://localhost:9000/b" 3600 [] tDate =
      tAuth.presign_url "GET" "http://localhost:9000/b" 3600 [] tDate :=
  C2_signing_deterministic tAuth tAuth "GET" "GET" "http://localhost:9000/b"
    "http://localhost:9000/b" [("host", "localhost:9000")] [("host", "localhost:9000")]
    [] [] [] [] tDate tDate 3600 3600 rfl rfl rfl rfl rfl rfl rfl rfl

/-- C5 (corrected): the signer performs no input validation — whenever
`urlparse` accepts the URL (it rejects only bracket-unbalanced netlocs),
`sign_request` returns a normal result even when the headers lack
`host`, and `presign_url` returns a normal result even for a URL that is
not a URL in any meaningful sense; no error is surfaced. -/
theorem C5_no_input_validation (auth : AWSV4Auth) (method url : String)
    (headers : Bindings) (body : List Nat) (qp : Bindings) (now : Datetime)
    (expires : Int) (t : Datetime) (pr : ParseResult)
    (hparse : urlparse url = Except.ok pr) :
    (auth.sign_request method url headers body qp now).isOk = true ∧
    (auth.presign_url method url expires qp t).isOk = true := by
  rw [sign_request_eq auth method url headers body qp now pr hparse,
    presign_url_eq auth method url expires qp t pr hparse]
  exact ⟨rfl, rfl⟩

theorem C5_no_input_validation_witness :
    (tAuth.sign_request "GET" "http://localhost:9000/b" [] [] [] tDate).isOk = true ∧
    (tAuth.presign_url "GET" "http://localhost:9000/b" 3600 [] tDate).isOk = true :=
  C5_no_input_validation tAuth "GET" "http://localhost:9000/b" [] [] [] tDate 3600 tDate
    ⟨"http", "localhost:9000", "/b", "", "", ""⟩ (by decide)

/-- C5 counterexample: the claim that an unparsable URL or a missing
`host` header fails immediately is false — `sign_request` with no `host`
header and `presign_url` on the garbage string `:::not a url:::` both
return successfully. -/
theorem C5_counterexample :
    (tAuth.sign_request "GET" ":::not a url:::" [] [] [] tDate).isOk = true ∧
    (tAuth.presign_url "GET" ":::not a url:::" 3600 [] tDate).isOk = true := by
  constructor
  · rw [sign_request_eq tAuth "GET" ":::not a url:::" [] [] [] tDate
      ⟨"", "", ":::not a url:::", "", "", ""⟩ (by decide)]
    rfl
  · rw [presign_url_eq tAuth "GET" ":::not a url:::" 3600 [] tDate
      ⟨"", "", ":::not a url:::", "", "", ""⟩ (by decide)]
    rfl

/-- C6: canonical headers lower-case every name, strip only leading and
trailing whitespace of values, sort by lower-cased name and emit
`name:value\n` lines (the block ends in a newline), with the signed list
the same names joined by `;` — equal to the spec's reference definition
for every header mapping; in particular `Host ↦ " x "` canonicalizes to
`host:x\n`. -/
theorem C6_canonical_headers :
    (∀ (auth : AWSV4Auth) (headers : Bindings),
      auth.get_canonical_headers headers = canonicalHeadersSpec headers) ∧
    (∀ headers : Bindings, List.Sorted entryLe (signedHeadersList headers)) ∧
    tAuth.get_canonical_headers [("Host", " x ")] = ("host:x\n", "host") ∧
    tAuth.get_canonical_headers [("X-Test", " a  b ")] = ("x-test:a  b\n", "x-test") :=
  ⟨fun _ _ => rfl, signedHeadersList_sorted, by decide, by decide⟩

/-- C7: the signing key of `_get_signature_key` is exactly the four-stage
HMAC-SHA256 chain K1 = HMAC("AWS4" ++ secret, date), K2 = HMAC(K1,
region), K3 = HMAC(K2, "s3"), K4 = HMAC(K3, "aws4_request"), returned as
raw bytes, and recomputing with equal date (and credential) yields the
same key. -/
theorem C7_signature_key_chain (auth auth2 : AWSV4Auth) (ds ds2 : String)
    (ha : auth2 = auth) (hd : ds2 = ds) :
    auth.get_signature_key ds =
      hmacSha256 (hmacSha256 (hmacSha256 (hmacSha256
        (utf8Bytes ("AWS4" ++ auth.secret_key)) (utf8Bytes ds))
        (utf8Bytes auth.region)) (utf8Bytes "s3")) (utf8Bytes "aws4_request") ∧
    auth2.get_signature_key ds2 = auth.get_signature_key ds := by
  subst ha hd
  exact ⟨rfl, rfl⟩

theorem C7_signature_key_chain_witness :
    tAuth.get_signature_key "20240615" =
      hmacSha256 (hmacSha256 (hmacSha256 (hmacSha256
        (utf8Bytes ("AWS4" ++ tAuth.secret_key)) (utf8Bytes "20240615"))
        (utf8Bytes tAuth.region)) (utf8Bytes "s3")) (utf8Bytes "aws4_request") :=
  (C7_signature_key_chain tAuth tAuth "20240615" "20240615" rfl rfl).1

/-- C8: `sign_request` injects `x-amz-date` and `x-amz-content-sha256`
into the header set before canonical headers are built; the returned
mapping is the input headers extended with those two entries and
`Authorization`; the Authorization value's SignedHeaders component is
the `;`-join of exactly the names of the canonical-headers block's
entries — one sorted list `signedHeadersList` underlies both — and that
name list includes `x-amz-date` and `x-amz-content-sha256`. -/
theorem C8_signed_headers_match (auth : AWSV4Auth) (method url : String)
    (headers : Bindings) (body : List Nat) (qp : Bindings) (now : Datetime)
    (pr : ParseResult) (hparse : urlparse url = Except.ok pr) :
    auth.sign_request method url headers body qp now = Except.ok
      (dictSet (dictSet (dictSet headers "x-amz-date" (amzDateOf now))
        "x-amz-content-sha256" (auth.sha256_hash body)) "Authorization"
        (ALGORITHM ++ " Credential=" ++ auth.access_key ++ "/" ++
          (dateStampOf now ++ "/" ++ auth.region ++ "/" ++ SERVICE ++ "/aws4_request") ++
          ", SignedHeaders=" ++
          String.intercalate ";" ((signedHeadersList (dictSet (dictSet headers "x-amz-date"
            (amzDateOf now)) "x-amz-content-sha256" (auth.sha256_hash body))).map Prod.fst) ++
          ", Signature=" ++ signRequestSignature auth method pr headers body qp now)) ∧
    auth.get_canonical_headers (dictSet (dictSet headers "x-amz-date" (amzDateOf now))
        "x-amz-content-sha256" (auth.sha256_hash body)) =
      (String.join ((signedHeadersList (dictSet (dictSet headers "x-amz-date" (amzDateOf now))
          "x-amz-content-sha256" (auth.sha256_hash body))).map
            (fun p => p.1 ++ ":" ++ p.2 ++ "\n")),
       String.intercalate ";" ((signedHeadersList (dictSet (dictSet headers "x-amz-date"
          (amzDateOf now)) "x-amz-content-sha256" (auth.sha256_hash body))).map Prod.fst)) ∧
    "x-amz-date" ∈ (signedHeadersList (dictSet (dictSet headers "x-amz-date" (amzDateOf now))
      "x-amz-content-sha256" (auth.sha256_hash body))).map Prod.fst ∧
    "x-amz-content-sha256" ∈ (signedHeadersList (dictSet (dictSet headers "x-amz-date"
      (amzDateOf now)) "x-amz-content-sha256" (auth.sha256_hash body))).map Prod.fst :=
  ⟨sign_request_eq auth method url headers body qp now pr hparse,
   get_canonical_headers_eq auth _,
   mem_signedHeadersList _ _ (hasKey_injected_date headers _ _) (by decide),
   mem_signedHeadersList _ _ (hasKey_injected_hash headers _ _) (by decide)⟩

theorem C8_signed_headers_match_witness :
    "x-amz-date" ∈ (signedHeadersList (dictSet (dictSet [("host", "localhost:9000")]
      "x-amz-date" (amzDateOf tDate)) "x-amz-content-sha256"
      (tAuth.sha256_hash []))).map Prod.fst :=
  (C8_signed_headers_match tAuth "GET" "http://localhost:9000/b"
    [("host", "localhost:9000")] [] [] tDate
    ⟨"http", "localhost:9000", "/b", "", "", ""⟩ (by decide)).2.2.1

/-- C3 (corrected): `presign_url` returns `scheme://host/path?Q`, where
`Q` is the `urlencode` of the presign parameter list in insertion order —
the five `X-Amz-*` parameters, then the caller's extras, then
`X-Amz-Signature` appended last after the signature is computed. The
query string used for signing is sorted, but the emitted `Q` is not
sorted by key in general. -/
theorem C3_presign_query_order (auth : AWSV4Auth) (method url : String)
    (expires_in : Int) (qp : Bindings) (t : Datetime) (pr : ParseResult)
    (hparse : urlparse url = Except.ok pr)
    (hnod : (qp.map Prod.fst).Nodup)
    (hdisj : ∀ p ∈ qp, p.1 ∉ reservedPresignKeys)
    (hkeys : ∀ p ∈ qp, isUnreservedStr p.1 = true)
    (hvals : ∀ p ∈ qp, p.2 ≠ "")
    (hq : '?' ∉ (pr.scheme ++ "://" ++ pr.netloc ++
      (if pr.path = "" then "/" else pr.path)).data) :
    ∃ u, auth.presign_url method url expires_in qp t = Except.ok u ∧
      u = pr.scheme ++ "://" ++ pr.netloc ++ (if pr.path = "" then "/" else pr.path) ++
        "?" ++ urlencode (presignFixed auth expires_in t ++ qp ++
          [("X-Amz-Signature", presignSignature auth method pr expires_in qp t)]) ∧
      parseQueryKeys (queryTail u) =
        ["X-Amz-Algorithm", "X-Amz-Credential", "X-Amz-Date", "X-Amz-Expires",
         "X-Amz-SignedHeaders"] ++ qp.map Prod.fst ++ ["X-Amz-Signature"] := by
  refine ⟨_, presign_url_structure auth method url expires_in qp t pr hparse hnod hdisj,
    rfl, ?_⟩
  exact presign_query_keys auth method url expires_in qp t pr _ hparse hnod hdisj hkeys
    hvals hq (presign_url_structure auth method url expires_in qp t pr hparse hnod hdisj)

theorem C3_presign_query_order_witness :
    tAuth.presign_url "GET" "http://localhost:9000/bucket/key" 3600 [] tDate =
      Except.ok presignFixtureUrl ∧
    parseQueryKeys (queryTail presignFixtureUrl) =
      ["X-Amz-Algorithm", "X-Amz-Credential", "X-Amz-Date", "X-Amz-Expires",
       "X-Amz-SignedHeaders"] ++ ([] : Bindings).map Prod.fst ++ ["X-Amz-Signature"] := by
  obtain ⟨u, h1, h2, h3⟩ := C3_presign_query_order tAuth "GET"
    "http://localhost:9000/bucket/key" 3600 [] tDate tParse (by decide) (by simp)
    (by simp) (by simp) (by simp) (by decide)
  rw [h2] at h1 h3
  exact ⟨h1, h3⟩

/-- C3 counterexample: at a concrete call the reparsed query keys of the
returned URL are the six parameters in emission order, and that order is
not lexicographically sorted — `X-Amz-SignedHeaders` precedes
`X-Amz-Signature` although `X-Amz-Signature` sorts first. -/
theorem C3_counterexample :
    tAuth.presign_url "GET" "http://localhost:9000/bucket/key" 3600 [] tDate =
      Except.ok presignFixtureUrl ∧
    parseQueryKeys (queryTail presignFixtureUrl) =
      ["X-Amz-Algorithm", "X-Amz-Credential", "X-Amz-Date", "X-Amz-Expires",
       "X-Amz-SignedHeaders", "X-Amz-Signature"] ∧
    ¬ List.Pairwise (fun a b : String => strLe a b = true)
      ["X-Amz-Algorithm", "X-Amz-Credential", "X-Amz-Date", "X-Amz-Expires",
       "X-Amz-SignedHeaders", "X-Amz-Signature"] := by
  refine ⟨presign_url_structure tAuth "GET" "http://localhost:9000/bucket/key"
    3600 [] tDate tParse (by decide) (by simp) (by simp), ?_, by decide⟩
  have hk := presign_query_keys tAuth "GET" "http://localhost:9000/bucket/key" 3600
    [] tDate tParse presignFixtureUrl (by decide) (by simp) (by simp) (by simp)
    (by simp) (by decide)
    (presign_url_structure tAuth "GET" "http://localhost:9000/bucket/key" 3600 [] tDate
      tParse (by decide) (by simp) (by simp))
  simpa using hk

/-- C9: reparsing the query string of a presigned URL yields exactly the
six `X-Amz-*` parameters plus exactly the caller-supplied extras, with
no key appearing twice (extras assumed to have unreserved keys disjoint
from the six, unique keys, and nonempty values — blank-valued pairs are
dropped by `parse_qs`'s defaults). -/
theorem C9_presign_roundtrip (auth : AWSV4Auth) (method url : String)
    (expires_in : Int) (qp : Bindings) (t : Datetime) (pr : ParseResult)
    (hparse : urlparse url = Except.ok pr)
    (hnod : (qp.map Prod.fst).Nodup)
    (hdisj : ∀ p ∈ qp, p.1 ∉ reservedPresignKeys)
    (hkeys : ∀ p ∈ qp, isUnreservedStr p.1 = true)
    (hvals : ∀ p ∈ qp, p.2 ≠ "")
    (hq : '?' ∉ (pr.scheme ++ "://" ++ pr.netloc ++
      (if pr.path = "" then "/" else pr.path)).data)
    (u : String)
    (hu : auth.presign_url method url expires_in qp t = Except.ok u) :
    parseQueryKeys (queryTail u) =
      ["X-Amz-Algorithm", "X-Amz-Credential", "X-Amz-Date", "X-Amz-Expires",
       "X-Amz-SignedHeaders"] ++ qp.map Prod.fst ++ ["X-Amz-Signature"] ∧
    (["X-Amz-Algorithm", "X-Amz-Credential", "X-Amz-Date", "X-Amz-Expires",
      "X-Amz-SignedHeaders"] ++ qp.map Prod.fst ++ ["X-Amz-Signature"]).Nodup := by
  constructor
  · exact presign_query_keys auth method url expires_in qp t pr u hparse hnod hdisj
      hkeys hvals hq hu
  · have hsub : ∀ a : String,
        a ∈ ["X-Amz-Algorithm", "X-Amz-Credential", "X-Amz-Date", "X-Amz-Expires",
          "X-Amz-SignedHeaders"] → a ∈ reservedPresignKeys := by
      intro a ha
      simp only [List.mem_cons, List.not_mem_nil, or_false] at ha
      rcases ha with rfl | rfl | rfl | rfl | rfl <;> simp [reservedPresignKeys]
    have hfq : (["X-Amz-Algorithm", "X-Amz-Credential", "X-Amz-Date", "X-Amz-Expires",
        "X-Amz-SignedHeaders"] ++ qp.map Prod.fst).Nodup := by
      refine List.Nodup.append (by decide) hnod ?_
      intro a ha hm
      obtain ⟨p, hp, rfl⟩ := List.mem_map.mp hm
      exact hdisj p hp (hsub _ ha)
    refine hfq.append (by simp) ?_
    intro a ha hs
    have hax : a = "X-Amz-Signature" := by simpa using hs
    subst hax
    rcases List.mem_append.mp ha with hm | hm
    · revert hm
      decide
    · obtain ⟨p, hp, hfst⟩ := List.mem_map.mp hm
      exact hdisj p hp (hfst ▸ (by simp [reservedPresignKeys]))

theorem C9_presign_roundtrip_witness :
    parseQueryKeys (queryTail ("http" ++ "://" ++ "localhost:9000" ++ "/bucket/key" ++
      "?" ++ urlencode (presignFixed tAuth 3600 tDate ++ [("versionId", "v123")] ++
        [("X-Amz-Signature", presignSignature tAuth "GET"
          ⟨"http", "localhost:9000", "/bucket/key", "", "", ""⟩ 3600
          [("versionId", "v123")] tDate)]))) =
      ["X-Amz-Algorithm", "X-Amz-Credential", "X-Amz-Date", "X-Amz-Expires",
       "X-Amz-SignedHeaders", "versionId", "X-Amz-Signature"] := by
  have h := (C9_presign_roundtrip tAuth "GET" "http://localhost:9000/bucket/key" 3600
    [("versionId", "v123")] tDate ⟨"http", "localhost:9000", "/bucket/key", "", "", ""⟩
    (by decide) (by simp) (by decide) (by decide) (by decide) (by decide) _
    (presign_url_structure tAuth "GET" "http://localhost:9000/bucket/key" 3600
      [("versionId", "v123")] tDate ⟨"http", "localhost:9000", "/bucket/key", "", "", ""⟩
      (by decide) (by simp) (by decide))).1
  simpa using h

theorem occursIn_cons_of (n t : List Char) (c : Char) (h : occursIn n t = true) :
    occursIn n (c :: t) = true := by
  show (takesLead n (c :: t) || occursIn n t) = true
  rw [h, Bool.or_true]

/-- C4 (corrected): with the fixed credential `test-access`/`test-secret`,
region `us-east-1`, `expires_in = 3600` and request date
2024-06-15T12:00:00Z, every `presign_url` result contains the substring
`X-Amz-Date=20240615T120000Z` and the percent-encoded credential
substring `X-Amz-Credential=test-access%2F20240615%2Fus-east-1%2Fs3%2Faws4_request`
(the `/` of the credential scope is `%2F` in the URL), and repeated
calls with the same inputs return the identical string. -/
theorem C4_presign_date_credential (method url : String) (qp : Bindings)
    (pr : ParseResult)
    (hparse : urlparse url = Except.ok pr)
    (hnod : (qp.map Prod.fst).Nodup)
    (hdisj : ∀ p ∈ qp, p.1 ∉ reservedPresignKeys)
    (u : String)
    (hu : tAuth.presign_url method url 3600 qp tDate = Except.ok u) :
    strOccursIn "X-Amz-Date=20240615T120000Z" u = true ∧
    strOccursIn "X-Amz-Credential=test-access%2F20240615%2Fus-east-1%2Fs3%2Faws4_request"
      u = true ∧
    (∀ u2, tAuth.presign_url method url 3600 qp tDate = Except.ok u2 → u2 = u) := by
  have hs := presign_url_structure tAuth method url 3600 qp tDate pr hparse hnod hdisj
  have he := Except.ok.inj (hu.symm.trans hs)
  subst he
  have hqdata : (urlencode (presignFixed tAuth 3600 tDate ++ qp ++
      [("X-Amz-Signature", presignSignature tAuth method pr 3600 qp tDate)])).data
      = interChar '&' ((presignFixed tAuth 3600 tDate).map encodePair) ++
        '&' :: interChar '&' ((qp ++ [("X-Amz-Signature",
          presignSignature tAuth method pr 3600 qp tDate)]).map encodePair) := by
    show interChar '&' ((presignFixed tAuth 3600 tDate ++ qp ++
      [("X-Amz-Signature", presignSignature tAuth method pr 3600 qp tDate)]).map encodePair) = _
    rw [List.append_assoc, List.map_append]
    exact interChar_append '&' _ _ (by simp [presignFixed]) (by simp)
  have hful : (pr.scheme ++ "://" ++ pr.netloc ++ (if pr.path = "" then "/" else pr.path) ++
      "?" ++ urlencode (presignFixed tAuth 3600 tDate ++ qp ++
        [("X-Amz-Signature", presignSignature tAuth method pr 3600 qp tDate)])).data
      = (pr.scheme ++ "://" ++ pr.netloc ++
          (if pr.path = "" then "/" else pr.path)).data ++
        '?' :: (urlencode (presignFixed tAuth 3600 tDate ++ qp ++
          [("X-Amz-Signature", presignSignature tAuth method pr 3600 qp tDate)])).data := by
    rw [String.data_append, String.data_append]
    simp [show ("?" : String).data = ['?'] from rfl]
  refine ⟨?_, ?_, ?_⟩
  · show occursIn ("X-Amz-Date=20240615T120000Z").data _ = true
    rw [hful, hqdata]
    refine occursIn_append_right _ _ _ (occursIn_cons_of _ _ _
      (occursIn_append_left _ _ _ ?_))
    decide
  · show occursIn
      ("X-Amz-Credential=test-access%2F20240615%2Fus-east-1%2Fs3%2Faws4_request").data _ = true
    rw [hful, hqdata]
    refine occursIn_append_right _ _ _ (occursIn_cons_of _ _ _
      (occursIn_append_left _ _ _ ?_))
    decide
  · intro u2 hu2
    exact Except.ok.inj (hu2.symm.trans hs)

theorem C4_presign_date_credential_witness :
    strOccursIn "X-Amz-Date=20240615T120000Z" presignFixtureUrl = true :=
  (C4_presign_date_credential "GET" "http://localhost:9000/bucket/key" []
    tParse (by decide) (by simp) (by simp) presignFixtureUrl
    (presign_url_structure tAuth "GET" "http://localhost:9000/bucket/key"
      3600 [] tDate tParse (by decide) (by simp) (by simp))).1

theorem takesLead_mem (n h : List Char) (hl : takesLead n h = true) :
    ∀ c ∈ n, c ∈ h := by
  induction n generalizing h with
  | nil => intro c hc; cases hc
  | cons a n2 ih =>
    cases h with
    | nil => cases hl
    | cons b h2 =>
      simp only [takesLead, Bool.and_eq_true, beq_iff_eq] at hl
      intro c hc
      rcases List.mem_cons.mp hc with rfl | hc2
      · rw [hl.1]; exact List.mem_cons_self _ _
      · exact List.mem_cons_of_mem _ (ih h2 hl.2 c hc2)

theorem noSlashAfterEq_tail (c : Char) (t : List Char)
    (h : noSlashAfterEq (c :: t) = true) : noSlashAfterEq t = true := by
  by_cases hc : c = '='
  · simp only [noSlashAfterEq, if_pos hc, Bool.and_eq_true] at h
    exact h.2
  · simpa only [noSlashAfterEq, if_neg hc] using h

theorem noSlashAfterEq_takesLead (n h : List Char) (hl : takesLead n h = true)
    (hh : noSlashAfterEq h = true) : noSlashAfterEq n = true := by
  induction n generalizing h with
  | nil => rfl
  | cons a n2 ih =>
    cases h with
    | nil => cases hl
    | cons b h2 =>
      simp only [takesLead, Bool.and_eq_true, beq_iff_eq] at hl
      obtain ⟨rfl, hl2⟩ := hl
      by_cases ha : a = '='
      · simp only [noSlashAfterEq, if_pos ha, Bool.and_eq_true] at hh ⊢
        refine ⟨?_, ih h2 hl2 hh.2⟩
        rw [List.all_eq_true] at hh ⊢
        intro d hd
        exact hh.1 d (takesLead_mem n2 h2 hl2 d hd)
      · simp only [noSlashAfterEq, if_neg ha] at hh ⊢
        exact ih h2 hl2 hh

theorem noSlashAfterEq_occursIn (n h : List Char) (ho : occursIn n h = true)
    (hh : noSlashAfterEq h = true) : noSlashAfterEq n = true := by
  induction h with
  | nil =>
    cases n with
    | nil => rfl
    | cons c t => cases ho
  | cons c t ih =>
    simp only [occursIn, Bool.or_eq_true] at ho
    rcases ho with ho | ho
    · exact noSlashAfterEq_takesLead n (c :: t) ho hh
    · exact ih ho (noSlashAfterEq_tail c t hh)

theorem noSlashAfterEq_of_no_slash (q : List Char) (hq : '/' ∉ q) :
    noSlashAfterEq q = true := by
  induction q with
  | nil => rfl
  | cons c t ih =>
    have ht : '/' ∉ t := fun h => hq (List.mem_cons_of_mem _ h)
    by_cases hc : c = '='
    · simp only [noSlashAfterEq, if_pos hc, Bool.and_eq_true]
      refine ⟨?_, ih ht⟩
      rw [List.all_eq_true]
      intro d hd
      simp only [Bool.not_eq_true']
      exact beq_eq_false_iff_ne.mpr (fun hde => ht (hde ▸ hd))
    · simp only [noSlashAfterEq, if_neg hc]
      exact ih ht

theorem noSlashAfterEq_append (p q : List Char) (hp : '=' ∉ p) (hq : '/' ∉ q) :
    noSlashAfterEq (p ++ q) = true := by
  induction p with
  | nil => exact noSlashAfterEq_of_no_slash q hq
  | cons c t ih =>
    have hc : ¬ c = '=' := fun h => hp (by simp [h])
    simp only [List.cons_append, noSlashAfterEq, if_neg hc]
    exact ih (fun h => hp (List.mem_cons_of_mem _ h))

theorem interChar_mem (c d : Char) (ps : List (List Char))
    (h : c ∈ interChar d ps) : c = d ∨ ∃ p ∈ ps, c ∈ p := by
  induction ps with
  | nil => cases h
  | cons x t ih =>
    cases t with
    | nil => exact Or.inr ⟨x, by simp, h⟩
    | cons y t2 =>
      have hx : interChar d (x :: y :: t2) = x ++ d :: interChar d (y :: t2) := rfl
      rw [hx] at h
      rcases List.mem_append.mp h with h | h
      · exact Or.inr ⟨x, by simp, h⟩
      · rcases List.mem_cons.mp h with rfl | h
        · exact Or.inl rfl
        · rcases ih h with h | ⟨p, hp, hcp⟩
          · exact Or.inl h
          · exact Or.inr ⟨p, by simp [hp], hcp⟩

theorem encodePair_no_slash (p : String × String) : '/' ∉ encodePair p := by
  unfold encodePair
  intro h
  rcases List.mem_append.mp h with h | h
  · exact quotePlusChars_no_slash p.1 h
  · rcases List.mem_cons.mp h with h | h
    · cases h
    · exact quotePlusChars_no_slash p.2 h

theorem urlencode_no_slash (ps : List (String × String)) : '/' ∉ (urlencode ps).data := by
  intro h
  have hd : (urlencode ps).data = interChar '&' (ps.map encodePair) := rfl
  rw [hd] at h
  rcases interChar_mem '/' '&' (ps.map encodePair) h with h | ⟨piece, hp, hcp⟩
  · cases h
  · obtain ⟨q, _, rfl⟩ := List.mem_map.mp hp
    exact encodePair_no_slash q hcp

/-- C4 counterexample: at the claim's fixed inputs the returned URL does
not contain the raw-slash substring
`X-Amz-Credential=test-access/20240615/us-east-1/s3/aws4_request`: the
query string of the URL contains no `/` at all (every byte is
percent-encoded, so the credential's slashes appear as `%2F`), while the
claimed substring has a `/` after a `=`, and in the returned URL every
`/` comes before every `=`. -/
theorem C4_counterexample :
    tAuth.presign_url "GET" "http://localhost:9000/bucket/key" 3600 [] tDate =
      Except.ok presignFixtureUrl ∧
    strOccursIn "X-Amz-Credential=test-access/20240615/us-east-1/s3/aws4_request"
      presignFixtureUrl = false := by
  refine ⟨presign_url_structure tAuth "GET" "http://localhost:9000/bucket/key"
    3600 [] tDate tParse (by decide) (by simp) (by simp), ?_⟩
  have hdata : presignFixtureUrl.data =
      (tParse.scheme ++ "://" ++ tParse.netloc ++
        (if tParse.path = "" then "/" else tParse.path)).data ++
      '?' :: (urlencode (presignFixed tAuth 3600 tDate ++ [] ++
        [("X-Amz-Signature", presignSignature tAuth "GET" tParse 3600 [] tDate)])).data := by
    show ((tParse.scheme ++ "://" ++ tParse.netloc ++
      (if tParse.path = "" then "/" else tParse.path)) ++ "?" ++
      urlencode (presignFixed tAuth 3600 tDate ++ [] ++
        [("X-Amz-Signature", presignSignature tAuth "GET" tParse 3600 [] tDate)])).data = _
    rw [String.data_append, String.data_append]
    simp [show ("?" : String).data = ['?'] from rfl]
  have hhay : noSlashAfterEq presignFixtureUrl.data = true := by
    rw [hdata]
    refine noSlashAfterEq_append _ _ ?_ ?_
    · decide
    · intro hmem
      rcases List.mem_cons.mp hmem with h | h
      · cases h
      · exact urlencode_no_slash _ h
  have hfalse : noSlashAfterEq
      ("X-Amz-Credential=test-access/20240615/us-east-1/s3/aws4_request").data = false := by
    decide
  show occursIn
    ("X-Amz-Credential=test-access/20240615/us-east-1/s3/aws4_request").data
    presignFixtureUrl.data = false
  cases hoc : occursIn
      ("X-Amz-Credential=test-access/20240615/us-east-1/s3/aws4_request").data
      presignFixtureUrl.data with
  | false => rfl
  | true =>
    have hcon := noSlashAfterEq_occursIn _ _ hoc hhay
    rw [hfalse] at hcon
    cases hcon

end Buckerio
